import Mathlib

/-!
# Verification of the daggyr scheduling core

A shallow embedding of the repository's DAG traversal engine
(`src/dag.rs`) and of the pure decision logic of its executors
(`src/executors/slurm_executor.rs`, `src/executors/noop_executor.rs`),
together with proofs and refutations of the specification's claims
about them.

Rust `usize` counters are modelled as `Nat`, `HashSet<usize>` as
`Finset Nat`, `HashMap<K, usize>` as an association list, and
`anyhow::Result` as `Except DagError`.  Methods taking `&mut self`
that can mutate the receiver before returning an error are modelled
in state-passing style, returning the final state next to the result.
-/

set_option linter.unusedSectionVars false

namespace Daggyr

/-- Modelled from the spec: the per-vertex lifecycle enumeration
`State` is declared in `crate::structs`, which is not part of the
sources; the spec lists its variants as Queued, Running, Completed,
Errored, Killed. -/
inductive State where
  | Queued
  | Running
  | Completed
  | Errored
  | Killed
deriving DecidableEq, Repr

/-- The error conditions surfaced by `DAG` methods.  The Rust code
returns `anyhow!` string errors; each distinct message site is mapped
to one constructor. -/
inductive DagError where
  | DuplicateKey
  | UnknownKey
  | Cycle
  | NotVisiting
  | BadTransition
deriving DecidableEq, Repr

instance {e a : Type} [DecidableEq e] [DecidableEq a] : DecidableEq (Except e a) :=
  fun x y =>
    match x, y with
    | .ok u, .ok v => decidable_of_iff (u = v) (by simp)
    | .error u, .error v => decidable_of_iff (u = v) (by simp)
    | .ok _, .error _ => isFalse (by simp)
    | .error _, .ok _ => isFalse (by simp)

/-- `Vertex<T>` from `src/dag.rs`: identifier, child and parent index
sets, lifecycle state and the outstanding-parents counter. -/
structure Vertex (T : Type) where
  id : T
  children : Finset Nat
  parents : Finset Nat
  state : State
  parents_outstanding : Nat
deriving DecidableEq

/-- `Vertex::new` from `src/dag.rs`. -/
def Vertex.new {T : Type} (id : T) : Vertex T :=
  { id := id, children := ∅, parents := ∅, state := .Queued, parents_outstanding := 0 }

instance {T : Type} [Inhabited T] : Inhabited (Vertex T) := ⟨Vertex.new default⟩

/-- `DAG<T>` from `src/dag.rs`: the vertex array, the identifier→index
map, the ready set and the visiting set. -/
structure DAG (T : Type) where
  vertices : List (Vertex T)
  keymap : List (T × Nat)
  ready : Finset Nat
  visiting : Finset Nat
deriving DecidableEq

variable {T : Type} [DecidableEq T] [Inhabited T]

/-- `DAG::new`. -/
def DAG.new (T : Type) : DAG T :=
  { vertices := [], keymap := [], ready := ∅, visiting := ∅ }

/-- Association-list lookup modelling `HashMap::get`. -/
def lookupKey (m : List (T × Nat)) (k : T) : Option Nat :=
  match m with
  | [] => none
  | (k', i) :: rest => if k' = k then some i else lookupKey rest k

/-- The iteration order used to model a `for x in hash_set` loop: the
set's elements listed in increasing order.  (Insertion sort is used so
that concrete instances reduce inside the kernel; every theorem below
is independent of the order.) -/
def sortedList (s : Finset Nat) : List Nat :=
  Quot.liftOn s.val (fun l => l.insertionSort (· ≤ ·)) (by
    intro a b hab
    exact List.eq_of_perm_of_sorted
      (((List.perm_insertionSort _ a).trans hab).trans
        (List.perm_insertionSort _ b).symm)
      (List.sorted_insertionSort _ a) (List.sorted_insertionSort _ b))

theorem mem_sortedList {s : Finset Nat} {c : Nat} : c ∈ sortedList s ↔ c ∈ s := by
  rcases s with ⟨val, h⟩
  induction val using Quot.ind with
  | _ l =>
    show c ∈ l.insertionSort (· ≤ ·) ↔ _
    rw [(List.perm_insertionSort (· ≤ ·) l).mem_iff]
    rfl

theorem nodup_sortedList (s : Finset Nat) : (sortedList s).Nodup := by
  rcases s with ⟨val, h⟩
  induction val using Quot.ind with
  | _ l =>
    exact (List.perm_insertionSort (· ≤ ·) l).nodup_iff.mpr h

/-- The vertex at index `i` (`self.vertices[idx]`); total with a junk
default, used only at indices validated by the keymap. -/
def DAG.vert (d : DAG T) (i : Nat) : Vertex T :=
  d.vertices.getD i default

/-- In-place update of the vertex at index `i`. -/
def DAG.modifyVert (d : DAG T) (i : Nat) (f : Vertex T → Vertex T) : DAG T :=
  { d with vertices := d.vertices.set i (f (d.vert i)) }

/-- `DAG::add_vertex`: fails with `DuplicateKey` when the key is
present; otherwise appends a fresh `Queued` vertex, maps the key to
its index, and puts the index in the ready set. -/
def addVertex (d : DAG T) (key : T) : Except DagError (DAG T) :=
  match lookupKey d.keymap key with
  | some _ => .error .DuplicateKey
  | none =>
    let idx := d.vertices.length
    .ok { d with
          vertices := d.vertices ++ [Vertex.new key],
          keymap := (key, idx) :: d.keymap,
          ready := insert idx d.ready }

/-- `DAG::add_vertices`: sequential insertion; the first duplicate
aborts, leaving earlier insertions applied (hence the state-passing
result). -/
def addVertices (d : DAG T) : List T → Except DagError Unit × DAG T
  | [] => (.ok (), d)
  | k :: ks =>
    match addVertex d k with
    | .error e => (.error e, d)
    | .ok d' => addVertices d' ks

/-- `DAG::reset`: sets every `parents_outstanding` to the size of the
parent set and inserts every vertex with an empty parent set into the
ready set (without removing anything from it). -/
def reset (d : DAG T) : DAG T :=
  { d with
    vertices := d.vertices.map fun v => { v with parents_outstanding := v.parents.card },
    ready := d.ready ∪ (Finset.range d.vertices.length).filter
      fun i => (d.vert i).parents.card = 0 }

/-- `DAG::visit_next`, specialised to the element `idx` that the
unspecified `self.ready.iter().next()` choice returned: the vertex
becomes `Running`, leaves the ready set and enters the visiting set.
Theorems about `visit_next` quantify over every `idx ∈ d.ready`,
covering all behaviours the hash-set iteration order permits. -/
def visitNextAt (d : DAG T) (idx : Nat) : DAG T :=
  let d := d.modifyVert idx fun v => { v with state := .Running }
  { d with ready := d.ready.erase idx, visiting := insert idx d.visiting }

/-- The body of the per-child loop in `DAG::complete_visit`: decrement
the child's outstanding counter and, when it reaches zero, insert the
child into the ready set. -/
def releaseChild (d : DAG T) (c : Nat) : DAG T :=
  let d := d.modifyVert c fun v =>
    { v with parents_outstanding := v.parents_outstanding - 1 }
  if (d.vert c).parents_outstanding = 0 then
    { d with ready := insert c d.ready }
  else d

/-- `DAG::complete_visit`: `UnknownKey` for an absent key,
`NotVisiting` when the index is not in the visiting set; otherwise the
index leaves the visiting set, and — unless the vertex is already
`Completed` — the state becomes `Errored` (errored) or `Completed`
with every child released (not errored).  The children hash set is
iterated in an order-irrelevant way; we fold over its sorted list. -/
def completeVisit (d : DAG T) (key : T) (errored : Bool) : Except DagError (DAG T) :=
  match lookupKey d.keymap key with
  | none => .error .UnknownKey
  | some idx =>
    if idx ∈ d.visiting then
      let d := { d with visiting := d.visiting.erase idx }
      if (d.vert idx).state = .Completed then .ok d
      else if errored then
        .ok (d.modifyVert idx fun v => { v with state := .Errored })
      else
        let d := d.modifyVert idx fun v => { v with state := .Completed }
        .ok ((sortedList (d.vert idx).children).foldl releaseChild d)
    else .error .NotVisiting

/-- `DAG::set_vertex_state`.  Note the faithful modelling of the Rust
control flow: the `Completed` / `Errored` / `Killed` target arms first
remove the index from the ready and visiting sets and then delegate to
`complete_visit`, whose error (if any) is propagated while the
removals remain applied — hence the state-passing result type. -/
def setVertexState (d : DAG T) (key : T) (state : State) :
    Except DagError Unit × DAG T :=
  match lookupKey d.keymap key with
  | none => (.error .UnknownKey, d)
  | some idx =>
    let cur := (d.vert idx).state
    if cur = state then (.ok (), d)
    else
      match cur, state with
      | _, .Completed =>
        let d1 := { d with ready := d.ready.erase idx, visiting := d.visiting.erase idx }
        match completeVisit d1 key false with
        | .error e => (.error e, d1)
        | .ok d2 => (.ok (), d2.modifyVert idx fun v => { v with state := state })
      | .Errored, .Queued =>
        (.ok (), { d with ready := insert idx d.ready }.modifyVert idx
          fun v => { v with state := state })
      | .Killed, .Queued =>
        (.ok (), { d with ready := insert idx d.ready }.modifyVert idx
          fun v => { v with state := state })
      | _, .Errored =>
        let d1 := { d with ready := d.ready.erase idx, visiting := d.visiting.erase idx }
        match completeVisit d1 key true with
        | .error e => (.error e, d1)
        | .ok d2 => (.ok (), d2.modifyVert idx fun v => { v with state := state })
      | _, .Killed =>
        let d1 := { d with ready := d.ready.erase idx, visiting := d.visiting.erase idx }
        match completeVisit d1 key true with
        | .error e => (.error e, d1)
        | .ok d2 => (.ok (), d2.modifyVert idx fun v => { v with state := state })
      | _, _ => (.error .BadTransition, d)

/-- The `for child in children` loop of `DAG::_has_path`: try each
child in turn via the search function `f`, threading the `seen` set
and stopping at the first success. -/
def hasPathStep (f : Nat → Finset Nat → Bool × Finset Nat) :
    List Nat → Finset Nat → Bool × Finset Nat
  | [], seen => (false, seen)
  | c :: cs, seen =>
    match f c seen with
    | (true, seen') => (true, seen')
    | (false, seen') => hasPathStep f cs seen'

/-- `DAG::_has_path`: depth-first search for a path from `src` to
`dst` with a shared `seen` set.  A fuel argument makes the recursion
structural; `hasPath` supplies fuel `|V| + 1`, which the correctness
lemmas show is never exhausted. -/
def hasPathAux (d : DAG T) (dst : Nat) : Nat → Nat → Finset Nat → Bool × Finset Nat
  | 0, _, seen => (false, seen)
  | fuel + 1, src, seen =>
    if src = dst then (true, seen)
    else if src ∈ seen then (false, seen)
    else if dst ∈ (d.vert src).children then (true, seen)
    else hasPathStep (hasPathAux d dst fuel)
      (sortedList (d.vert src).children) (insert src seen)

/-- `DAG::has_path`: resolves both keys (`UnknownKey` on failure) and
runs the DFS with an empty `seen` set. -/
def hasPath (d : DAG T) (srcKey dstKey : T) : Except DagError Bool :=
  match lookupKey d.keymap srcKey with
  | none => .error .UnknownKey
  | some src =>
    match lookupKey d.keymap dstKey with
    | none => .error .UnknownKey
    | some dst => .ok (hasPathAux d dst (d.vertices.length + 1) src ∅).1

/-- The mutation performed by `DAG::add_edge` once both keys are
resolved and the cycle check has passed: record the edge on both
endpoints, increment `dst`'s outstanding counter unless `src` is
`Completed`, and place `dst` in the ready set when its counter is zero
(evicting it otherwise). -/
def addEdgeApply (d : DAG T) (src dst : Nat) : DAG T :=
  let d := d.modifyVert src fun v => { v with children := insert dst v.children }
  let d := d.modifyVert dst fun v => { v with parents := insert src v.parents }
  let d :=
    match (d.vert src).state with
    | .Completed => d
    | _ => d.modifyVert dst fun v =>
        { v with parents_outstanding := v.parents_outstanding + 1 }
  if (d.vert dst).parents_outstanding = 0 then
    { d with ready := insert dst d.ready }
  else
    { d with ready := d.ready.erase dst }

/-- `DAG::add_edge`: first asks `has_path(dst, src)` (propagating its
`UnknownKey`), rejects with `Cycle` if a path exists, and otherwise
performs `addEdgeApply` on the two resolved indices. -/
def addEdge (d : DAG T) (srcKey dstKey : T) : Except DagError (DAG T) :=
  match hasPath d dstKey srcKey with
  | .error e => .error e
  | .ok true => .error .Cycle
  | .ok false =>
    match lookupKey d.keymap srcKey, lookupKey d.keymap dstKey with
    | some src, some dst => .ok (addEdgeApply d src dst)
    | _, _ => .error .UnknownKey

/-- `DAG::can_progress`. -/
def canProgress (d : DAG T) : Bool :=
  !(decide (d.ready = ∅) && decide (d.visiting = ∅))

/-- `DAG::is_complete`. -/
def isComplete (d : DAG T) : Bool :=
  decide (d.visiting = ∅) && decide (d.ready = ∅)

/-! ## Executor model

The executors' decision logic is deterministic once the outcomes of
the I/O actions (HTTP round trips, file reads) are fixed, so it is
embedded as pure functions over explicit representations of those
outcomes.  A `serde_json::Value` is modelled by `Json`; string-indexing
a non-object or a missing key yields `null`, as serde_json documents.
-/

/-- A `serde_json::Value`.  Numbers are restricted to integers, which
covers every field the executor reads (`exit_code`, `job_id`). -/
inductive Json where
  | null
  | bool (b : Bool)
  | num (n : Int)
  | str (s : String)
  | arr (elems : List Json)
  | obj (fields : List (String × Json))

/-- `value[key]` on a `serde_json::Value`: the field of an object, or
`Null` when the key is missing or the value is not an object. -/
def Json.get : Json → String → Json
  | .obj fields, key =>
    match fields.find? (fun f => f.1 = key) with
    | some f => f.2
    | none => .null
  | _, _ => .null

/-- `Value::as_str`. -/
def Json.asStr : Json → Option String
  | .str s => some s
  | _ => none

/-- `Value::as_i64`. -/
def Json.asI64 : Json → Option Int
  | .num n => if -(2 ^ 63) ≤ n ∧ n < 2 ^ 63 then some n else none
  | _ => none

/-- `Value::as_array`. -/
def Json.asArray : Json → Option (List Json)
  | .arr elems => some elems
  | _ => none

/-- Modelled from the spec: `TaskAttempt` is declared in
`crate::structs`, which is not part of the sources.  The spec lists
its fields and defaults: `succeeded=false`, empty strings and
sequences, `exit_code=0`, `killed=false`, `start_time=now` (timestamps
are abstracted as `Nat`). -/
structure TaskAttempt where
  succeeded : Bool
  output : String
  error : String
  executor : List String
  exit_code : Int
  killed : Bool
  start_time : Nat
deriving DecidableEq, Repr

/-- Modelled from the spec: `TaskAttempt::default()` / `::new()` with
the defaults above, at creation time `now`. -/
def TaskAttempt.mkDefault (now : Nat) : TaskAttempt :=
  { succeeded := false, output := "", error := "", executor := [],
    exit_code := 0, killed := false, start_time := now }

/-- `slurp_if_exists` from `src/executors/slurm_executor.rs`: the file
contents when the path exists, otherwise the path string itself.  The
file system is abstracted as a partial map from paths to contents. -/
def slurp_if_exists (fs : String → Option String) (filename : String) : String :=
  match fs filename with
  | some contents => contents
  | none => filename

/-- `i32::try_from(v).unwrap_or(-1)` on an `i64` value. -/
def i32FromI64OrNeg1 (v : Int) : Int :=
  if -(2 ^ 31) ≤ v ∧ v < 2 ^ 31 then v else -1

/-- The outcome of one HTTP `GET <base>/job/<slurm_id>` round trip, as
the watcher observes it: a transport-level failure of
`send().await` (whose `Result` the code unwraps), or a response with a
status code and a body that either is or is not valid JSON (the code
unwraps `result.json().await`). -/
inductive PollResult where
  | transportError
  | response (status : Nat) (body : Option Json)

/-- What one `JobEvent::Timeout` arm of the watcher loop does next:
panic on a failed `unwrap`, keep polling, or send exactly one
`ExecutionReport` carrying `attempt` and stop. -/
inductive WatchOutcome where
  | panicked
  | continuePolling
  | report (attempt : TaskAttempt)
deriving DecidableEq, Repr

/-- The diagnostic placed in `executor` when a poll returns non-200. -/
def pollFailureMsg (slurm_id : Nat) (task_id : String) : String :=
  "Unable to query job status, assuming critical failure. Investigate job id "
    ++ toString slurm_id ++ ", task name " ++ task_id ++ " in slurm for more details"

/-- The diagnostic placed in `executor` by the cluster-fault branch. -/
def clusterIssueMsg (state : String) : String :=
  "Job failed due to potential cluster issue: " ++ state

/-- The `JobEvent::Timeout` arm of `watch_job`'s loop, with the poll
round trip's outcome `pr`, the current kill-acknowledged flag
`killed`, and the file system `fs` made explicit.  Every `.unwrap()`
on a failing value is the `panicked` outcome. -/
def watchPoll (slurm_id : Nat) (task_id : String) (start_time : Nat) (killed : Bool)
    (fs : String → Option String) (pr : PollResult) : WatchOutcome :=
  match pr with
  | .transportError => .panicked
  | .response status body =>
    if status ≠ 200 then
      .report { TaskAttempt.mkDefault start_time with
                executor := [pollFailureMsg slurm_id task_id] }
    else
      match body with
      | none => .panicked
      | some payload =>
        match (payload.get "jobs").asArray with
        | none => .panicked
        | some jobs =>
          match jobs.head? with
          | none => .panicked
          | some job =>
            match (job.get "job_state").asStr with
            | none => .panicked
            | some state =>
              if state = "COMPLETED" ∨ state = "FAILED" ∨ state = "CANCELLED"
                  ∨ state = "TIMEOUT" ∨ state = "OOM" then
                match (job.get "standard_error").asStr with
                | none => .panicked
                | some errPath =>
                  match (job.get "standard_output").asStr with
                  | none => .panicked
                  | some outPath =>
                    match (job.get "exit_code").asI64 with
                    | none => .panicked
                    | some code =>
                      .report { TaskAttempt.mkDefault start_time with
                                succeeded := decide (state = "COMPLETED"),
                                output := slurp_if_exists fs outPath,
                                error := slurp_if_exists fs errPath,
                                start_time := start_time,
                                exit_code := i32FromI64OrNeg1 code,
                                killed := killed }
              else if state = "NODE_FAIL" ∨ state = "PREEMPTED" ∨ state = "BOOT_FAIL"
                  ∨ state = "DEADLINE" then
                match (job.get "standard_error").asStr with
                | none => .panicked
                | some errPath =>
                  match (job.get "standard_output").asStr with
                  | none => .panicked
                  | some outPath =>
                    match (job.get "exit_code").asI64 with
                    | none => .panicked
                    | some code =>
                      .report { TaskAttempt.mkDefault start_time with
                                succeeded := false,
                                output := slurp_if_exists fs outPath,
                                error := slurp_if_exists fs errPath,
                                start_time := start_time,
                                executor := [clusterIssueMsg state],
                                exit_code := i32FromI64OrNeg1 code }
              else .continuePolling

/-- `SlurmTaskDetail` from `src/executors/slurm_executor.rs` (paths as
strings, maps as association lists). -/
structure SlurmTaskDetail where
  user : String
  jwt_token : String
  min_cpus : Nat
  min_memory_mb : Nat
  min_tmp_disk_mb : Nat
  priority : Nat
  time_limit_seconds : Nat
  command : List String
  environment : List (String × String)
  logdir : String
deriving DecidableEq, Repr

/-- Deserialisation of one required or defaulted `usize` field under
serde's semantics: missing uses the default, present values must be
non-negative integers. -/
def Json.natField (j : Json) (key : String) (dflt : Nat) : Except String Nat :=
  match j.get key with
  | .null => .ok dflt
  | .num n => if n < 0 then .error ("invalid value for " ++ key) else .ok n.toNat
  | _ => .error ("invalid type for " ++ key)

/-- A required string field. -/
def Json.strField (j : Json) (key : String) : Except String String :=
  match (j.get key).asStr with
  | some s => .ok s
  | none => .error ("missing or invalid field " ++ key)

/-- `extract_details`: `serde_json::from_value::<SlurmTaskDetail>`,
following the struct's serde attributes: `user`, `jwt_token`,
`command` and `logdir` are required; `min_cpus`, `min_memory_mb`,
`min_tmp_disk_mb` and `priority` default to 1, 200, 0 and 1;
`time_limit_seconds` uses `#[serde(default)]`, i.e. 0; `environment`
defaults to empty.  A field key present with the wrong type is an
error; the input must be a JSON object. -/
def extract_details (details : Json) : Except String SlurmTaskDetail :=
  match details with
  | .obj _ => do
    let user ← details.strField "user"
    let jwt ← details.strField "jwt_token"
    let cpus ← details.natField "min_cpus" 1
    let mem ← details.natField "min_memory_mb" 200
    let disk ← details.natField "min_tmp_disk_mb" 0
    let prio ← details.natField "priority" 1
    let tls ← details.natField "time_limit_seconds" 0
    let command ←
      match (details.get "command").asArray with
      | none => .error "missing or invalid field command"
      | some elems =>
        elems.mapM fun e =>
          match e.asStr with
          | some s => Except.ok s
          | none => Except.error "invalid element in command"
    let env ←
      match details.get "environment" with
      | .null => .ok []
      | .obj fields =>
        fields.mapM fun f =>
          match f.2.asStr with
          | some s => Except.ok (f.1, s)
          | none => Except.error "invalid element in environment"
      | _ => .error "invalid type for environment"
    let logdir ← details.strField "logdir"
    .ok { user := user, jwt_token := jwt, min_cpus := cpus, min_memory_mb := mem,
          min_tmp_disk_mb := disk, priority := prio, time_limit_seconds := tls,
          command := command, environment := env, logdir := logdir }
  | _ => .error "invalid type: not an object"

/-- `A.unwrap()` on a `Result`: the value, or a panic. -/
inductive PanicOr (α : Type) where
  | panicked
  | ok (a : α)
deriving DecidableEq, Repr

/-- The `extract_details(details).unwrap()` at the top of
`submit_slurm_job`. -/
def submitParse (details : Json) : PanicOr SlurmTaskDetail :=
  match extract_details details with
  | .ok t => .ok t
  | .error _ => .panicked

/-- The `extract_details(&details).unwrap()` at the top of
`watch_job`. -/
def watchParse (details : Json) : PanicOr SlurmTaskDetail :=
  match extract_details details with
  | .ok t => .ok t
  | .error _ => .panicked

/-- The `ValidateTask` arm of the slurm executor loop: `Ok` exactly
when `extract_details` succeeds. -/
def validateTask (details : Json) : Except String Unit :=
  match extract_details details with
  | .error e => .error e
  | .ok _ => .ok ()

/-- Observable channel writes of an executor while handling one
message. -/
inductive ExecAction where
  | killSignal (run_id : Nat) (task_id : String)
  | stopAck
deriving DecidableEq, Repr

/-- The `StopTask` arm of the slurm executor's `start_executor` loop:
`running_tasks.remove` and, when a watcher was registered, a kill
signal down its channel; the acknowledgement is sent afterwards in
every case.  `running` is the domain of the `running_tasks` map. -/
def slurmStopTask (running : List (Nat × String)) (run_id : Nat) (task_id : String) :
    List ExecAction × List (Nat × String) :=
  if (run_id, task_id) ∈ running then
    ([.killSignal run_id task_id, .stopAck], running.filter (fun p => p ≠ (run_id, task_id)))
  else
    ([.stopAck], running)

/-- The `StopTask` arm of the noop executor's `start_local_executor`
loop (`StopTask { .. } => {}`): nothing is sent on any channel. -/
def noopStopTask (run_id : Nat) (task_id : String) : List ExecAction :=
  let _ := run_id
  let _ := task_id
  []

/-! ## Derived notions used by the specification's claims -/

/-- The edge relation of a DAG state: `b` is a child of `a`. -/
def edgeRel (d : DAG T) (a b : Nat) : Prop :=
  b ∈ (d.vert a).children

instance (d : DAG T) (a b : Nat) : Decidable (edgeRel d a b) := by
  unfold edgeRel; infer_instance

/-- A directed path (possibly empty) from `a` to `b`. -/
def Reach (d : DAG T) (a b : Nat) : Prop :=
  Relation.ReflTransGen (edgeRel d) a b

/-- No directed cycle: no vertex reaches itself in one or more steps. -/
def AcyclicDag (d : DAG T) : Prop :=
  ∀ i, ¬Relation.TransGen (edgeRel d) i i

/-- Structural well-formedness of a DAG value: every stored index is a
valid position in the vertex array. -/
structure WF (d : DAG T) : Prop where
  children_lt : ∀ i, ∀ c ∈ (d.vert i).children, c < d.vertices.length
  parents_lt : ∀ i, ∀ p ∈ (d.vert i).parents, p < d.vertices.length
  lookup_lt : ∀ k i, lookupKey d.keymap k = some i → i < d.vertices.length
  ready_lt : ∀ i ∈ d.ready, i < d.vertices.length
  visiting_lt : ∀ i ∈ d.visiting, i < d.vertices.length

/-- Ready-set soundness, the invariant of spec §8 property 3: a vertex
is in the ready set iff it is `Queued` with no outstanding parents. -/
def ReadySound (d : DAG T) : Prop :=
  (∀ i ∈ d.ready, i < d.vertices.length) ∧
  ∀ i < d.vertices.length,
    (i ∈ d.ready ↔ (d.vert i).state = .Queued ∧ (d.vert i).parents_outstanding = 0)

/-- The parents of `i` that are not yet `Completed` — the quantity the
outstanding counter is meant to bound. -/
def pendingParents (d : DAG T) (i : Nat) : Finset Nat :=
  ((d.vert i).parents).filter fun p => ¬(d.vert p).state = .Completed

/-- Every vertex still `Queued` (the build phase never changes a
state). -/
def AllQueued (d : DAG T) : Prop :=
  ∀ i, (d.vert i).state = .Queued

/-- The inductive invariant of the build-then-traverse discipline from
which ready-set soundness follows: well-formedness, soundness itself,
the visiting set holds `Running` vertices, non-`Queued` vertices have
exhausted counters, counters dominate the pending-parent counts, edges
are recorded symmetrically, and no vertex is its own child. -/
structure TraverseInv (d : DAG T) : Prop where
  wf : WF d
  sound : ∀ i < d.vertices.length,
    (i ∈ d.ready ↔ (d.vert i).state = .Queued ∧ (d.vert i).parents_outstanding = 0)
  visRun : ∀ i ∈ d.visiting, (d.vert i).state = .Running
  nqz : ∀ i < d.vertices.length,
    (d.vert i).state ≠ .Queued → (d.vert i).parents_outstanding = 0
  cge : ∀ i < d.vertices.length,
    (pendingParents d i).card ≤ (d.vert i).parents_outstanding
  sym : ∀ i < d.vertices.length, ∀ c < d.vertices.length,
    (c ∈ (d.vert i).children ↔ i ∈ (d.vert c).parents)
  irr : ∀ i, i ∉ (d.vert i).children

/-- All DAG states reachable from the empty DAG through the public
interface.  Each constructor is one call of a public method; a call
that returns an error contributes the state it leaves behind (for the
methods that mutate before failing, that is the second component of
their result; the remaining methods leave the receiver untouched, so
the pre-state itself covers them). -/
inductive DagReachable : DAG T → Prop where
  | empty : DagReachable (DAG.new T)
  | addVertexOk {d d' : DAG T} {k : T} :
      DagReachable d → addVertex d k = .ok d' → DagReachable d'
  | addVerticesAny {d : DAG T} {ks : List T} :
      DagReachable d → DagReachable (addVertices d ks).2
  | addEdgeOk {d d' : DAG T} {s t : T} :
      DagReachable d → addEdge d s t = .ok d' → DagReachable d'
  | resetAny {d : DAG T} : DagReachable d → DagReachable (reset d)
  | visitAt {d : DAG T} {idx : Nat} :
      DagReachable d → idx ∈ d.ready → DagReachable (visitNextAt d idx)
  | completeOk {d d' : DAG T} {k : T} {e : Bool} :
      DagReachable d → completeVisit d k e = .ok d' → DagReachable d'
  | setStateAny {d : DAG T} {k : T} {s : State} :
      DagReachable d → DagReachable (setVertexState d k s).2

/-- The build-phase fragment of the interface: vertex and edge
insertion only. -/
inductive BuildReachable : DAG T → Prop where
  | empty : BuildReachable (DAG.new T)
  | addVertexOk {d d' : DAG T} {k : T} :
      BuildReachable d → addVertex d k = .ok d' → BuildReachable d'
  | addVerticesAny {d : DAG T} {ks : List T} :
      BuildReachable d → BuildReachable (addVertices d ks).2
  | addEdgeOk {d d' : DAG T} {s t : T} :
      BuildReachable d → addEdge d s t = .ok d' → BuildReachable d'

/-- States reached by building a graph, optionally calling `reset()`
once, and then traversing it with `visit_next` / `complete_visit` —
the build-then-traverse discipline of the repository's tests. -/
inductive TraverseReachable : DAG T → Prop where
  | ofBuild {d : DAG T} : BuildReachable d → TraverseReachable d
  | resetOfBuild {d : DAG T} : BuildReachable d → TraverseReachable (reset d)
  | visitAt {d : DAG T} {idx : Nat} :
      TraverseReachable d → idx ∈ d.ready → TraverseReachable (visitNextAt d idx)
  | completeOk {d d' : DAG T} {k : T} {e : Bool} :
      TraverseReachable d → completeVisit d k e = .ok d' → TraverseReachable d'


/-! ### Concrete DAG states used by witnesses and counterexamples -/

/-- Helper to chain fallible DAG constructions in concrete examples. -/
def orEmpty (x : Except DagError (DAG Nat)) : DAG Nat :=
  x.toOption.getD (DAG.new Nat)

/-- A reachable one-vertex DAG whose vertex `0` has just been returned
by `visit_next`: it is `Running` and in the visiting set. -/
def dagC1 : DAG Nat := visitNextAt (addVertices (DAG.new Nat) [0]).2 0

/-- A reachable DAG with vertices `{0, 1, 2}`, edges `0→1` and `0→2`,
and vertex `0` currently being visited. -/
def dagW : DAG Nat :=
  visitNextAt
    (orEmpty (addEdge (orEmpty (addEdge (addVertices (DAG.new Nat) [0, 1, 2]).2 0 1)) 0 2)) 0

/-- A reachable three-vertex DAG in which vertex `0` has been visited
and completed (state `Completed`), while `1` and `2` are `Queued` in
the ready set. -/
def dagC3 : DAG Nat :=
  orEmpty (completeVisit (visitNextAt (addVertices (DAG.new Nat) [0, 1, 2]).2 0) 0 false)

/-- `dagC3` with the edge `1→2` added. -/
def dagC3b : DAG Nat := orEmpty (addEdge dagC3 1 2)

/-- A reachable chain `0→1→2`, all vertices `Queued`. -/
def dagC5 : DAG Nat :=
  orEmpty (addEdge (orEmpty (addEdge (addVertices (DAG.new Nat) [0, 1, 2]).2 0 1)) 1 2)

/-- The intermediate state of `dagC5` with only the edge `0→1`. -/
def dagC5a : DAG Nat := orEmpty (addEdge (addVertices (DAG.new Nat) [0, 1, 2]).2 0 1)

/-- A reachable two-vertex DAG (edge `0→1`) whose traversal has been
fully completed: both vertices are `Completed`, both sets empty. -/
def dagC9 : DAG Nat :=
  let d0 := orEmpty (addEdge (addVertices (DAG.new Nat) [0, 1]).2 0 1)
  let d1 := orEmpty (completeVisit (visitNextAt d0 0) 0 false)
  orEmpty (completeVisit (visitNextAt d1 1) 1 false)

/-- A reachable one-vertex DAG after a failed
`set_vertex_state(0, Killed)`: the call removed `0` from the ready set
before erroring. -/
def dagC4b : DAG Nat := (setVertexState (addVertices (DAG.new Nat) [0]).2 0 .Killed).2

/-- A reachable two-vertex DAG where `1` was visited first, the edge
`0→1` was added mid-traversal, and then `0` was visited and completed:
completing `0` drops `1`'s counter to zero and re-inserts the still
`Running` vertex `1` into the ready set. -/
def dagC4c : DAG Nat :=
  orEmpty (completeVisit
    (visitNextAt
      (orEmpty (addEdge (visitNextAt (addVertices (DAG.new Nat) [0, 1]).2 1) 0 1)) 0)
    0 false)

/-- A build-then-traverse state used to witness the amended ready-set
soundness claim: two vertices, edge `0→1`, vertex `0` mid-visit. -/
def dagC4w : DAG Nat :=
  visitNextAt (orEmpty (addEdge (addVertices (DAG.new Nat) [0, 1]).2 0 1)) 0

/-! ### Concrete executor documents used by witnesses and counterexamples -/

/-- A well-formed poll document for a job that finished `COMPLETED`. -/
def jobDocCompleted : Json :=
  Json.obj [("job_state", Json.str "COMPLETED"),
            ("standard_error", Json.str "/tmp/err"),
            ("standard_output", Json.str "/tmp/out"),
            ("exit_code", Json.num 0)]

/-- A well-formed poll document for a job that ended in `NODE_FAIL`. -/
def jobDocNodeFail : Json :=
  Json.obj [("job_state", Json.str "NODE_FAIL"),
            ("standard_error", Json.str "/tmp/err"),
            ("standard_output", Json.str "/tmp/out"),
            ("exit_code", Json.num 0)]

/-- A task-details document that conforms to the `SlurmTaskDetail`
schema (all required fields present, defaulted fields absent). -/
def goodDoc : Json :=
  Json.obj [("user", Json.str "alice"), ("jwt_token", Json.str "tok"),
            ("command", Json.arr [Json.str "echo", Json.str "hi"]),
            ("logdir", Json.str "/logs")]

/-- The `SlurmTaskDetail` that `goodDoc` deserialises to. -/
def goodDetail : SlurmTaskDetail :=
  { user := "alice", jwt_token := "tok", min_cpus := 1, min_memory_mb := 200,
    min_tmp_disk_mb := 0, priority := 1, time_limit_seconds := 0,
    command := ["echo", "hi"], environment := [], logdir := "/logs" }

/-! ## Basic structural lemmas -/

theorem length_modifyVert (d : DAG T) (i : Nat) (f : Vertex T → Vertex T) :
    (d.modifyVert i f).vertices.length = d.vertices.length :=
  List.length_set ..

theorem ready_modifyVert (d : DAG T) (i : Nat) (f : Vertex T → Vertex T) :
    (d.modifyVert i f).ready = d.ready := rfl

theorem visiting_modifyVert (d : DAG T) (i : Nat) (f : Vertex T → Vertex T) :
    (d.modifyVert i f).visiting = d.visiting := rfl

theorem keymap_modifyVert (d : DAG T) (i : Nat) (f : Vertex T → Vertex T) :
    (d.modifyVert i f).keymap = d.keymap := rfl

theorem vert_modifyVert (d : DAG T) (i j : Nat) (f : Vertex T → Vertex T) :
    (d.modifyVert i f).vert j =
      if i = j ∧ i < d.vertices.length then f (d.vert i) else d.vert j := by
  unfold DAG.modifyVert DAG.vert
  rcases Nat.decEq i j with h | h
  · simp only [List.getD_eq_getElem?_getD, List.getElem?_set_ne h]
    simp [h]
  · subst h
    by_cases hlt : i < d.vertices.length
    · simp [List.getD_eq_getElem?_getD, List.getElem?_set_self, hlt,
        List.getElem?_eq_getElem, hlt]
    · rw [List.set_eq_of_length_le (le_of_not_lt hlt)]
      simp [hlt]

theorem vert_modifyVert_self (d : DAG T) (i : Nat) (f : Vertex T → Vertex T)
    (h : i < d.vertices.length) : (d.modifyVert i f).vert i = f (d.vert i) := by
  rw [vert_modifyVert]; simp [h]

theorem vert_modifyVert_ne (d : DAG T) {i j : Nat} (f : Vertex T → Vertex T)
    (h : i ≠ j) : (d.modifyVert i f).vert j = d.vert j := by
  rw [vert_modifyVert]; simp [h]

theorem vert_reset (d : DAG T) (i : Nat) :
    (reset d).vert i =
      { d.vert i with parents_outstanding := ((d.vert i).parents).card } := by
  show ((d.vertices.map _).getD i default) = _
  rw [List.getD_eq_getElem?_getD, List.getElem?_map, DAG.vert,
    List.getD_eq_getElem?_getD]
  cases h : d.vertices[i]? with
  | none => rfl
  | some v => rfl

/-! ### The child-release loop of `complete_visit` -/

theorem releaseChild_length (d : DAG T) (c : Nat) :
    (releaseChild d c).vertices.length = d.vertices.length := by
  unfold releaseChild
  dsimp only
  split <;> simp [length_modifyVert]

theorem releaseChild_keymap (d : DAG T) (c : Nat) :
    (releaseChild d c).keymap = d.keymap := by
  unfold releaseChild
  dsimp only
  split <;> rfl

theorem releaseChild_visiting (d : DAG T) (c : Nat) :
    (releaseChild d c).visiting = d.visiting := by
  unfold releaseChild
  dsimp only
  split <;> rfl

theorem releaseChild_vert (d : DAG T) {c : Nat} (hc : c < d.vertices.length) (j : Nat) :
    (releaseChild d c).vert j =
      if c = j then
        { d.vert c with parents_outstanding := (d.vert c).parents_outstanding - 1 }
      else d.vert j := by
  unfold releaseChild
  dsimp only
  split <;>
  · show (DAG.modifyVert d c fun v =>
        { v with parents_outstanding := v.parents_outstanding - 1 }).vert j = _
    rw [vert_modifyVert]
    by_cases hcj : c = j
    · subst hcj
      rw [if_pos ⟨rfl, hc⟩, if_pos rfl]
    · rw [if_neg (by simp [hcj]), if_neg hcj]

theorem releaseChild_ready (d : DAG T) {c : Nat} (hc : c < d.vertices.length) :
    (releaseChild d c).ready =
      if (d.vert c).parents_outstanding - 1 = 0 then insert c d.ready else d.ready := by
  unfold releaseChild
  dsimp only
  rw [vert_modifyVert_self d c _ hc]
  split <;> rename_i h <;> simp only [ready_modifyVert] <;> simp_all

theorem foldl_release_length (cs : List Nat) (d : DAG T) :
    (cs.foldl releaseChild d).vertices.length = d.vertices.length := by
  induction cs generalizing d with
  | nil => rfl
  | cons c cs ih => simp [List.foldl_cons, ih, releaseChild_length]

theorem foldl_release_keymap (cs : List Nat) (d : DAG T) :
    (cs.foldl releaseChild d).keymap = d.keymap := by
  induction cs generalizing d with
  | nil => rfl
  | cons c cs ih => simp [List.foldl_cons, ih, releaseChild_keymap]

theorem foldl_release_visiting (cs : List Nat) (d : DAG T) :
    (cs.foldl releaseChild d).visiting = d.visiting := by
  induction cs generalizing d with
  | nil => rfl
  | cons c cs ih => simp [List.foldl_cons, ih, releaseChild_visiting]

theorem foldl_release_vert (cs : List Nat) (d : DAG T)
    (hlt : ∀ c ∈ cs, c < d.vertices.length) (hnd : cs.Nodup) (j : Nat) :
    (cs.foldl releaseChild d).vert j =
      if j ∈ cs then
        { d.vert j with parents_outstanding := (d.vert j).parents_outstanding - 1 }
      else d.vert j := by
  induction cs generalizing d with
  | nil => simp
  | cons c cs ih =>
    have hc : c < d.vertices.length := hlt c (List.mem_cons_self ..)
    have hlt' : ∀ x ∈ cs, x < (releaseChild d c).vertices.length := by
      intro x hx
      rw [releaseChild_length]
      exact hlt x (List.mem_cons_of_mem _ hx)
    have hnd' : cs.Nodup := (List.nodup_cons.mp hnd).2
    have hcn : c ∉ cs := (List.nodup_cons.mp hnd).1
    rw [List.foldl_cons, ih _ hlt' hnd']
    by_cases hjc : j = c
    · subst hjc
      rw [if_neg hcn, if_pos (List.mem_cons_self ..)]
      rw [releaseChild_vert d hc j, if_pos rfl]
    · by_cases hj : j ∈ cs
      · rw [if_pos hj, if_pos (List.mem_cons_of_mem _ hj)]
        rw [releaseChild_vert d hc j, if_neg (fun h => hjc h.symm)]
      · rw [if_neg hj, if_neg (by simp [hjc, hj])]
        rw [releaseChild_vert d hc j, if_neg (fun h => hjc h.symm)]

theorem foldl_release_ready (cs : List Nat) (d : DAG T)
    (hlt : ∀ c ∈ cs, c < d.vertices.length) (hnd : cs.Nodup) (j : Nat) :
    (j ∈ (cs.foldl releaseChild d).ready ↔
      j ∈ d.ready ∨ (j ∈ cs ∧ (d.vert j).parents_outstanding - 1 = 0)) := by
  induction cs generalizing d with
  | nil => simp
  | cons c cs ih =>
    have hc : c < d.vertices.length := hlt c (List.mem_cons_self ..)
    have hlt' : ∀ x ∈ cs, x < (releaseChild d c).vertices.length := by
      intro x hx
      rw [releaseChild_length]
      exact hlt x (List.mem_cons_of_mem _ hx)
    have hnd' : cs.Nodup := (List.nodup_cons.mp hnd).2
    have hcn : c ∉ cs := (List.nodup_cons.mp hnd).1
    rw [List.foldl_cons, ih _ hlt' hnd']
    rw [releaseChild_ready d hc]
    constructor
    · rintro (hin | ⟨hin, hz⟩)
      · split at hin
        · rcases Finset.mem_insert.mp hin with h | h
          · subst h
            exact Or.inr ⟨List.mem_cons_self .., by assumption⟩
          · exact Or.inl h
        · exact Or.inl hin
      · have hjne : j ≠ c := fun h => hcn (h ▸ hin)
        rw [releaseChild_vert d hc j, if_neg (fun h => hjne h.symm)] at hz
        exact Or.inr ⟨List.mem_cons_of_mem _ hin, hz⟩
    · rintro (hin | ⟨hin, hz⟩)
      · split
        · exact Or.inl (Finset.mem_insert_of_mem hin)
        · exact Or.inl hin
      · rcases List.mem_cons.mp hin with h | h
        · subst h
          rw [if_pos hz]
          exact Or.inl (Finset.mem_insert_self ..)
        · have hjne : j ≠ c := fun hh => hcn (hh ▸ h)
          refine Or.inr ⟨h, ?_⟩
          rw [releaseChild_vert d hc j, if_neg (fun hh => hjne hh.symm)]
          exact hz

/-! ### Unfolding lemmas for `complete_visit` -/

theorem completeVisit_unknown (d : DAG T) (key : T) (e : Bool)
    (h : lookupKey d.keymap key = none) :
    completeVisit d key e = .error .UnknownKey := by
  unfold completeVisit
  rw [h]

theorem completeVisit_notVisiting (d : DAG T) (key : T) (e : Bool) {idx : Nat}
    (h : lookupKey d.keymap key = some idx) (h2 : idx ∉ d.visiting) :
    completeVisit d key e = .error .NotVisiting := by
  unfold completeVisit
  rw [h]
  simp [h2]

theorem completeVisit_noop (d : DAG T) (key : T) (e : Bool) {idx : Nat}
    (h : lookupKey d.keymap key = some idx) (h2 : idx ∈ d.visiting)
    (h3 : (d.vert idx).state = .Completed) :
    completeVisit d key e = .ok { d with visiting := d.visiting.erase idx } := by
  unfold completeVisit
  rw [h]
  simp only [h2, if_pos]
  rw [if_pos]
  exact h3

theorem completeVisit_errored (d : DAG T) (key : T) {idx : Nat}
    (h : lookupKey d.keymap key = some idx) (h2 : idx ∈ d.visiting)
    (h3 : ¬(d.vert idx).state = .Completed) :
    completeVisit d key true =
      .ok ({ d with visiting := d.visiting.erase idx }.modifyVert idx
        fun v => { v with state := .Errored }) := by
  unfold completeVisit
  rw [h]
  simp only [h2, if_pos]
  split
  · rename_i hcc
    exact absurd hcc h3
  · rfl

theorem completeVisit_ok (d : DAG T) (key : T) {idx : Nat}
    (h : lookupKey d.keymap key = some idx) (h2 : idx ∈ d.visiting)
    (h3 : ¬(d.vert idx).state = .Completed) :
    completeVisit d key false =
      (let d1 := { d with visiting := d.visiting.erase idx }.modifyVert idx
        fun v => { v with state := .Completed }
       .ok ((sortedList (d1.vert idx).children).foldl releaseChild d1)) := by
  unfold completeVisit
  rw [h]
  simp only [h2, if_pos]
  split
  · rename_i hcc
    exact absurd hcc h3
  · rfl

/-! ### Effect of `add_edge` on the resolved indices -/

theorem addEdgeApply_spec (d : DAG T) {src dst : Nat} (hsrc : src < d.vertices.length)
    (hdst : dst < d.vertices.length) (hne : src ≠ dst) :
    (addEdgeApply d src dst).vertices.length = d.vertices.length
    ∧ (addEdgeApply d src dst).keymap = d.keymap
    ∧ (addEdgeApply d src dst).visiting = d.visiting
    ∧ (addEdgeApply d src dst).vert src =
        { d.vert src with children := insert dst (d.vert src).children }
    ∧ (addEdgeApply d src dst).vert dst =
        { d.vert dst with
          parents := insert src (d.vert dst).parents,
          parents_outstanding := (d.vert dst).parents_outstanding +
            (if (d.vert src).state = .Completed then 0 else 1) }
    ∧ (∀ j, j ≠ src → j ≠ dst → (addEdgeApply d src dst).vert j = d.vert j)
    ∧ ((addEdgeApply d src dst).ready =
        if (d.vert dst).parents_outstanding +
            (if (d.vert src).state = .Completed then 0 else 1) = 0
        then insert dst d.ready else d.ready.erase dst) := by
  unfold addEdgeApply
  dsimp only
  set d2 : DAG T := d.modifyVert src
    (fun v => { v with children := insert dst v.children }) with hd2
  set d3 : DAG T := d2.modifyVert dst
    (fun v => { v with parents := insert src v.parents }) with hd3
  have hlen2 : d2.vertices.length = d.vertices.length := by
    rw [hd2, length_modifyVert]
  have hlen3 : d3.vertices.length = d.vertices.length := by
    rw [hd3, length_modifyVert, hlen2]
  have hsrc2 : src < d2.vertices.length := hlen2 ▸ hsrc
  have hdst3 : dst < d3.vertices.length := hlen3 ▸ hdst
  have hdst2 : dst < d2.vertices.length := hlen2 ▸ hdst
  have f1 : d2.vert src = { d.vert src with children := insert dst (d.vert src).children } := by
    rw [hd2, vert_modifyVert_self _ _ _ hsrc]
  have f2 : ∀ j, j ≠ src → d2.vert j = d.vert j := by
    intro j hj
    rw [hd2, vert_modifyVert_ne _ _ (fun h => hj h.symm)]
  have f3 : d3.vert dst =
      { d.vert dst with parents := insert src (d.vert dst).parents } := by
    rw [hd3, vert_modifyVert_self _ _ _ hdst2, f2 dst (fun h => hne h.symm)]
  have f4 : ∀ j, j ≠ dst → d3.vert j = d2.vert j := by
    intro j hj
    rw [hd3, vert_modifyVert_ne _ _ (fun h => hj h.symm)]
  have hst3 : (d3.vert src).state = (d.vert src).state := by
    rw [f4 src hne, f1]
  have hmatch : (match (d3.vert src).state with
      | State.Completed => d3
      | _ => d3.modifyVert dst fun v =>
          { v with parents_outstanding := v.parents_outstanding + 1 })
      = if (d.vert src).state = .Completed then d3
        else d3.modifyVert dst fun v =>
          { v with parents_outstanding := v.parents_outstanding + 1 } := by
    rw [hst3]
    cases (d.vert src).state <;> simp
  rw [hmatch]
  by_cases hst : (d.vert src).state = .Completed
  · rw [if_pos hst]
    have hcnt : (d3.vert dst).parents_outstanding = (d.vert dst).parents_outstanding := by
      rw [f3]
    refine ⟨?_, by split <;> rfl, by split <;> rfl, ?_, ?_, ?_, ?_⟩
    · split <;> exact hlen3
    · have : ∀ r : Finset Nat, ({ d3 with ready := r } : DAG T).vert src = d3.vert src :=
        fun r => rfl
      split <;> rw [this, f4 src hne, f1]
    · have : ∀ r : Finset Nat, ({ d3 with ready := r } : DAG T).vert dst = d3.vert dst :=
        fun r => rfl
      split <;> rw [this, f3] <;> simp [hst]
    · intro j hjs hjd
      have : ∀ r : Finset Nat, ({ d3 with ready := r } : DAG T).vert j = d3.vert j :=
        fun r => rfl
      split <;> rw [this, f4 j hjd, f2 j hjs]
    · rw [hcnt]
      simp only [hst, if_pos, Nat.add_zero]
      split <;> rfl
  · rw [if_neg hst]
    set d4 : DAG T := d3.modifyVert dst
      (fun v => { v with parents_outstanding := v.parents_outstanding + 1 }) with hd4
    have hlen4 : d4.vertices.length = d.vertices.length := by
      rw [hd4, length_modifyVert, hlen3]
    have g1 : d4.vert dst =
        { d.vert dst with
          parents := insert src (d.vert dst).parents,
          parents_outstanding := (d.vert dst).parents_outstanding + 1 } := by
      rw [hd4, vert_modifyVert_self _ _ _ hdst3, f3]
    have g2 : ∀ j, j ≠ dst → d4.vert j = d3.vert j := by
      intro j hj
      rw [hd4, vert_modifyVert_ne _ _ (fun h => hj h.symm)]
    refine ⟨?_, by split <;> rfl, by split <;> rfl, ?_, ?_, ?_, ?_⟩
    · split <;> exact hlen4
    · have : ∀ r : Finset Nat, ({ d4 with ready := r } : DAG T).vert src = d4.vert src :=
        fun r => rfl
      split <;> rw [this, g2 src hne, f4 src hne, f1]
    · have : ∀ r : Finset Nat, ({ d4 with ready := r } : DAG T).vert dst = d4.vert dst :=
        fun r => rfl
      split <;> rw [this, g1] <;> simp [hst]
    · intro j hjs hjd
      have : ∀ r : Finset Nat, ({ d4 with ready := r } : DAG T).vert j = d4.vert j :=
        fun r => rfl
      split <;> rw [this, g2 j hjd, f4 j hjd, f2 j hjs]
    · have hcnt : (d4.vert dst).parents_outstanding =
          (d.vert dst).parents_outstanding + 1 := by
        rw [g1]
      rw [hcnt, if_neg hst]
      split <;> rfl

/-! ### Correctness of the depth-first search -/

/-- A vertex the DFS has finished with: not the target, no edge to the
target, and all children inside `s`. -/
def Explored (d : DAG T) (dst v : Nat) (s : Finset Nat) : Prop :=
  v ≠ dst ∧ dst ∉ (d.vert v).children ∧ ∀ c ∈ (d.vert v).children, c ∈ s

theorem Explored.mono {d : DAG T} {dst v : Nat} {s s' : Finset Nat}
    (h : Explored d dst v s) (hs : s ⊆ s') : Explored d dst v s' :=
  ⟨h.1, h.2.1, fun c hc => hs (h.2.2 c hc)⟩

theorem hasPathStep_sound {d : DAG T} {dst : Nat}
    {f : Nat → Finset Nat → Bool × Finset Nat}
    (hf : ∀ c seen, (f c seen).1 = true → Reach d c dst) :
    ∀ cs seen, (hasPathStep f cs seen).1 = true → ∃ c ∈ cs, Reach d c dst := by
  intro cs
  induction cs with
  | nil =>
    intro seen h
    exact absurd h (by simp [hasPathStep])
  | cons c cs ih =>
    intro seen h
    rcases hfc : f c seen with ⟨b, s1⟩
    rw [hasPathStep, hfc] at h
    cases b with
    | true => exact ⟨c, List.mem_cons_self .., hf c seen (by rw [hfc])⟩
    | false =>
      obtain ⟨x, hx, hr⟩ := ih s1 h
      exact ⟨x, List.mem_cons_of_mem _ hx, hr⟩

theorem hasPathAux_sound {d : DAG T} {dst : Nat} :
    ∀ fuel src seen, (hasPathAux d dst fuel src seen).1 = true → Reach d src dst := by
  intro fuel
  induction fuel with
  | zero =>
    intro src seen h
    exact absurd h (by simp [hasPathAux])
  | succ fuel ih =>
    intro src seen h
    rw [hasPathAux] at h
    by_cases h1 : src = dst
    · exact h1 ▸ Relation.ReflTransGen.refl
    rw [if_neg h1] at h
    by_cases h2 : src ∈ seen
    · rw [if_pos h2] at h
      exact absurd h (by simp)
    rw [if_neg h2] at h
    by_cases h3 : dst ∈ (d.vert src).children
    · exact Relation.ReflTransGen.single h3
    rw [if_neg h3] at h
    obtain ⟨c, hc, hr⟩ := hasPathStep_sound (fun c s hcs => ih c s hcs) _ _ h
    exact Relation.ReflTransGen.head (mem_sortedList.mp hc) hr

theorem hasPathStep_false {d : DAG T} {dst n fuel : Nat}
    (Hf : ∀ c seen, c < n → seen ⊆ Finset.range n → n + 1 - seen.card ≤ fuel →
      (hasPathAux d dst fuel c seen).1 = false →
      seen ⊆ (hasPathAux d dst fuel c seen).2 ∧
      (hasPathAux d dst fuel c seen).2 ⊆ Finset.range n ∧
      c ∈ (hasPathAux d dst fuel c seen).2 ∧
      ∀ v ∈ (hasPathAux d dst fuel c seen).2,
        v ∈ seen ∨ Explored d dst v (hasPathAux d dst fuel c seen).2) :
    ∀ cs seen, (∀ c ∈ cs, c < n) → seen ⊆ Finset.range n → n + 1 - seen.card ≤ fuel →
      (hasPathStep (hasPathAux d dst fuel) cs seen).1 = false →
      seen ⊆ (hasPathStep (hasPathAux d dst fuel) cs seen).2 ∧
      (hasPathStep (hasPathAux d dst fuel) cs seen).2 ⊆ Finset.range n ∧
      (∀ c ∈ cs, c ∈ (hasPathStep (hasPathAux d dst fuel) cs seen).2) ∧
      ∀ v ∈ (hasPathStep (hasPathAux d dst fuel) cs seen).2,
        v ∈ seen ∨ Explored d dst v (hasPathStep (hasPathAux d dst fuel) cs seen).2 := by
  intro cs
  induction cs with
  | nil =>
    intro seen _ hseen _ _
    rw [hasPathStep]
    exact ⟨Finset.Subset.refl _, hseen, by simp, fun v hv => Or.inl hv⟩
  | cons c cs ih =>
    intro seen hlt hseen hfuel h
    rcases hfc : hasPathAux d dst fuel c seen with ⟨b, s1⟩
    rw [hasPathStep, hfc] at h ⊢
    cases b with
    | true => exact absurd h (by simp)
    | false =>
      have hc : c < n := hlt c (List.mem_cons_self ..)
      obtain ⟨g1, g2, g3, g4⟩ := Hf c seen hc hseen hfuel (by rw [hfc])
      rw [hfc] at g1 g2 g3 g4
      have hfuel1 : n + 1 - s1.card ≤ fuel :=
        le_trans (Nat.sub_le_sub_left (Finset.card_le_card g1) _) hfuel
      obtain ⟨i1, i2, i3, i4⟩ :=
        ih s1 (fun x hx => hlt x (List.mem_cons_of_mem _ hx)) g2 hfuel1 h
      refine ⟨Finset.Subset.trans g1 i1, i2, ?_, ?_⟩
      · intro x hx
        rcases List.mem_cons.mp hx with hx | hx
        · exact hx ▸ i1 g3
        · exact i3 x hx
      · intro v hv
        rcases i4 v hv with hv1 | hv1
        · rcases g4 v hv1 with hv2 | hv2
          · exact Or.inl hv2
          · exact Or.inr (hv2.mono i1)
        · exact Or.inr hv1

theorem hasPathAux_false {d : DAG T} {dst : Nat}
    (hch : ∀ i, ∀ c ∈ (d.vert i).children, c < d.vertices.length) :
    ∀ fuel src seen, src < d.vertices.length →
      seen ⊆ Finset.range d.vertices.length →
      d.vertices.length + 1 - seen.card ≤ fuel →
      (hasPathAux d dst fuel src seen).1 = false →
      seen ⊆ (hasPathAux d dst fuel src seen).2 ∧
      (hasPathAux d dst fuel src seen).2 ⊆ Finset.range d.vertices.length ∧
      src ∈ (hasPathAux d dst fuel src seen).2 ∧
      ∀ v ∈ (hasPathAux d dst fuel src seen).2,
        v ∈ seen ∨ Explored d dst v (hasPathAux d dst fuel src seen).2 := by
  intro fuel
  induction fuel with
  | zero =>
    intro src seen _ hseen hfuel _
    have h1 : seen.card ≤ d.vertices.length := by
      have := Finset.card_le_card hseen
      rwa [Finset.card_range] at this
    omega
  | succ fuel ih =>
    intro src seen hsrc hseen hfuel h
    rw [hasPathAux] at h ⊢
    by_cases h1 : src = dst
    · rw [if_pos h1] at h
      exact absurd h (by simp)
    rw [if_neg h1] at h ⊢
    by_cases h2 : src ∈ seen
    · rw [if_pos h2] at h ⊢
      exact ⟨Finset.Subset.refl _, hseen, h2, fun v hv => Or.inl hv⟩
    rw [if_neg h2] at h ⊢
    by_cases h3 : dst ∈ (d.vert src).children
    · rw [if_pos h3] at h
      exact absurd h (by simp)
    rw [if_neg h3] at h ⊢
    have hseen1 : insert src seen ⊆ Finset.range d.vertices.length :=
      Finset.insert_subset (Finset.mem_range.mpr hsrc) hseen
    have hfuel1 : d.vertices.length + 1 - (insert src seen).card ≤ fuel := by
      rw [Finset.card_insert_of_not_mem h2]
      omega
    obtain ⟨g1, g2, g3, g4⟩ :=
      hasPathStep_false ih (sortedList (d.vert src).children) (insert src seen)
        (fun c hc => hch src c (mem_sortedList.mp hc)) hseen1 hfuel1 h
    refine ⟨Finset.Subset.trans (Finset.subset_insert ..) g1, g2,
      g1 (Finset.mem_insert_self ..), ?_⟩
    intro v hv
    rcases g4 v hv with hv1 | hv1
    · rcases Finset.mem_insert.mp hv1 with hv2 | hv2
      · subst hv2
        refine Or.inr ⟨h1, h3, ?_⟩
        intro c hc
        exact g3 c (mem_sortedList.mpr hc)
      · exact Or.inl hv2
    · exact Or.inr hv1

theorem hasPathAux_complete {d : DAG T} {dst src : Nat}
    (hch : ∀ i, ∀ c ∈ (d.vert i).children, c < d.vertices.length)
    (hsrc : src < d.vertices.length)
    (hfalse : (hasPathAux d dst (d.vertices.length + 1) src ∅).1 = false) :
    ¬Reach d src dst := by
  intro hreach
  obtain ⟨-, -, hsrcin, hexp⟩ :=
    hasPathAux_false hch (d.vertices.length + 1) src ∅ hsrc
      (Finset.empty_subset _) (by simp) hfalse
  set out := (hasPathAux d dst (d.vertices.length + 1) src ∅).2 with hout
  have hstay : ∀ a b, Reach d a b → a ∈ out → b ∈ out := by
    intro a b hab
    induction hab with
    | refl => exact id
    | tail h1 h2 ih =>
      intro ha
      rcases hexp _ (ih ha) with hc | hc
      · exact absurd hc (Finset.not_mem_empty _)
      · exact hc.2.2 _ h2
  have hdst : dst ∈ out := hstay src dst hreach hsrcin
  rcases hexp dst hdst with hc | hc
  · exact absurd hc (Finset.not_mem_empty _)
  · exact hc.1 rfl

theorem hasPathAux_iff {d : DAG T} {dst src : Nat}
    (hch : ∀ i, ∀ c ∈ (d.vert i).children, c < d.vertices.length)
    (hsrc : src < d.vertices.length) :
    (hasPathAux d dst (d.vertices.length + 1) src ∅).1 = true ↔ Reach d src dst := by
  constructor
  · exact hasPathAux_sound _ _ _
  · intro h
    cases hb : (hasPathAux d dst (d.vertices.length + 1) src ∅).1 with
    | true => rfl
    | false => exact absurd h (hasPathAux_complete hch hsrc hb)

theorem hasPathAux_self {d : DAG T} {x : Nat} (fuel : Nat) (seen : Finset Nat) :
    (hasPathAux d x (fuel + 1) x seen).1 = true := by
  rw [hasPathAux]
  simp

/-- `has_path` resolves its keys left to right and reports on
reachability of the underlying indices. -/
theorem hasPath_spec (d : DAG T) (srcKey dstKey : T)
    (hch : ∀ i, ∀ c ∈ (d.vert i).children, c < d.vertices.length) :
    (lookupKey d.keymap srcKey = none → hasPath d srcKey dstKey = .error .UnknownKey)
    ∧ (lookupKey d.keymap dstKey = none → hasPath d srcKey dstKey = .error .UnknownKey
        ∨ ∃ src, lookupKey d.keymap srcKey = some src)
    ∧ (∀ src dst, lookupKey d.keymap srcKey = some src →
        lookupKey d.keymap dstKey = some dst → src < d.vertices.length →
        ∃ b, hasPath d srcKey dstKey = .ok b ∧ (b = true ↔ Reach d src dst)) := by
  refine ⟨fun h => by rw [hasPath, h], ?_, ?_⟩
  · intro h
    cases hs : lookupKey d.keymap srcKey with
    | none => exact Or.inl (by rw [hasPath, hs])
    | some src => exact Or.inr ⟨src, rfl⟩
  · intro src dst hs hd hsrc
    refine ⟨_, by rw [hasPath, hs, hd], ?_⟩
    exact hasPathAux_iff hch hsrc

/-! ### Elimination lemmas for the fallible operations -/

theorem lookupKey_cons (k : T) (i : Nat) (m : List (T × Nat)) (q : T) :
    lookupKey ((k, i) :: m) q = if k = q then some i else lookupKey m q := rfl

theorem vert_append (l : List (Vertex T)) (v : Vertex T) (i : Nat) :
    (l ++ [v]).getD i default =
      if i < l.length then l.getD i default
      else if i = l.length then v else default := by
  rw [List.getD_eq_getElem?_getD, List.getElem?_append]
  rcases Nat.lt_trichotomy i l.length with h | h | h
  · rw [if_pos h, if_pos h, List.getD_eq_getElem?_getD]
  · subst h
    rw [if_neg (lt_irrefl _), if_neg (lt_irrefl _), if_pos rfl, Nat.sub_self]
    rfl
  · rw [if_neg (by omega), if_neg (by omega), if_neg (by omega),
      List.getElem?_eq_none (by simp; omega)]
    rfl

theorem addVertex_ok {d d' : DAG T} {k : T} (h : addVertex d k = .ok d') :
    lookupKey d.keymap k = none ∧
    d'.vertices = d.vertices ++ [Vertex.new k] ∧
    d'.keymap = (k, d.vertices.length) :: d.keymap ∧
    d'.ready = insert d.vertices.length d.ready ∧
    d'.visiting = d.visiting := by
  cases hl : lookupKey d.keymap k with
  | some i =>
    rw [addVertex, hl] at h
    exact absurd h (by simp)
  | none =>
    rw [addVertex, hl] at h
    injection h with h
    subst h
    exact ⟨rfl, rfl, rfl, rfl, rfl⟩

theorem addEdge_ok {d d' : DAG T} {s t : T} (h : addEdge d s t = .ok d') :
    ∃ src dst, lookupKey d.keymap s = some src ∧ lookupKey d.keymap t = some dst ∧
      (hasPathAux d src (d.vertices.length + 1) dst ∅).1 = false ∧
      d' = addEdgeApply d src dst := by
  cases ht : lookupKey d.keymap t with
  | none =>
    rw [addEdge, hasPath, ht] at h
    exact absurd h (by simp)
  | some dst =>
    cases hs : lookupKey d.keymap s with
    | none =>
      rw [addEdge, hasPath, ht] at h
      dsimp only at h
      rw [hs] at h
      exact absurd h (by simp)
    | some src =>
      rw [addEdge, hasPath, ht] at h
      dsimp only at h
      rw [hs] at h
      dsimp only at h
      cases hb : (hasPathAux d src (d.vertices.length + 1) dst ∅).1 with
      | true =>
        rw [hb] at h
        exact absurd h (by simp)
      | false =>
        rw [hb] at h
        dsimp only at h
        injection h with h
        exact ⟨src, dst, rfl, rfl, hb, h.symm⟩

/-! ### Well-formedness is preserved by every operation -/

theorem WF_new : WF (DAG.new T) := by
  have hd : ∀ i, (DAG.new T).vert i = Vertex.new (default : T) := fun i => rfl
  refine ⟨?_, ?_, ?_, ?_, ?_⟩
  · intro i c hc
    rw [hd] at hc
    exact absurd hc (Finset.not_mem_empty c)
  · intro i p hp
    rw [hd] at hp
    exact absurd hp (Finset.not_mem_empty p)
  · intro k i hk
    exact Option.noConfusion hk
  · intro i hi
    exact absurd hi (Finset.not_mem_empty i)
  · intro i hi
    exact absurd hi (Finset.not_mem_empty i)

theorem WF_modify_frame {d : DAG T} (hWF : WF d) (i : Nat) (f : Vertex T → Vertex T)
    (hf : ∀ v, (f v).children = v.children ∧ (f v).parents = v.parents) :
    WF (d.modifyVert i f) := by
  have hlen := length_modifyVert d i f
  refine ⟨?_, ?_, ?_, ?_, ?_⟩
  · intro j c hc
    rw [vert_modifyVert] at hc
    rw [hlen]
    split at hc
    · rename_i hij
      rw [(hf _).1] at hc
      exact hWF.children_lt i c (hij.1 ▸ hc)
    · exact hWF.children_lt j c hc
  · intro j p hp
    rw [vert_modifyVert] at hp
    rw [hlen]
    split at hp
    · rename_i hij
      rw [(hf _).2] at hp
      exact hWF.parents_lt i p (hij.1 ▸ hp)
    · exact hWF.parents_lt j p hp
  · intro k j hk
    rw [hlen]
    exact hWF.lookup_lt k j hk
  · intro j hj
    rw [hlen]
    exact hWF.ready_lt j hj
  · intro j hj
    rw [hlen]
    exact hWF.visiting_lt j hj

theorem WF_addVertex {d d' : DAG T} {k : T} (h : addVertex d k = .ok d') : WF d → WF d' := by
  intro hWF
  obtain ⟨-, hv, hk, hr, hvis⟩ := addVertex_ok h
  have hlen : d'.vertices.length = d.vertices.length + 1 := by
    rw [hv]
    simp
  have hvert : ∀ i, d'.vert i =
      if i < d.vertices.length then d.vert i
      else if i = d.vertices.length then Vertex.new k else default := by
    intro i
    show d'.vertices.getD i default = _
    rw [hv, vert_append]
    rfl
  refine ⟨?_, ?_, ?_, ?_, ?_⟩
  · intro i c hc
    rw [hvert] at hc
    rw [hlen]
    split at hc
    · exact lt_trans (hWF.children_lt i c hc) (by omega)
    · split at hc <;> simp [Vertex.new, default] at hc
  · intro i p hp
    rw [hvert] at hp
    rw [hlen]
    split at hp
    · exact lt_trans (hWF.parents_lt i p hp) (by omega)
    · split at hp <;> simp [Vertex.new, default] at hp
  · intro q j hq
    rw [hk, lookupKey_cons] at hq
    rw [hlen]
    split at hq
    · injection hq with hq
      omega
    · exact lt_trans (hWF.lookup_lt q j hq) (by omega)
  · intro j hj
    rw [hr] at hj
    rw [hlen]
    rcases Finset.mem_insert.mp hj with hj | hj
    · omega
    · exact lt_trans (hWF.ready_lt j hj) (by omega)
  · intro j hj
    rw [hvis] at hj
    rw [hlen]
    exact lt_trans (hWF.visiting_lt j hj) (by omega)

theorem WF_addVertices {d : DAG T} (ks : List T) : WF d → WF (addVertices d ks).2 := by
  induction ks generalizing d with
  | nil => exact id
  | cons k ks ih =>
    intro hWF
    rw [addVertices]
    cases h : addVertex d k with
    | error e => exact hWF
    | ok d' => exact ih (WF_addVertex h hWF)

theorem WF_addEdgeApply {d : DAG T} {src dst : Nat} (hWF : WF d)
    (hsrc : src < d.vertices.length) (hdst : dst < d.vertices.length)
    (hne : src ≠ dst) : WF (addEdgeApply d src dst) := by
  obtain ⟨hlen, hkm, hvis, hvsrc, hvdst, hvother, hready⟩ :=
    addEdgeApply_spec d hsrc hdst hne
  refine ⟨?_, ?_, ?_, ?_, ?_⟩
  · intro i c hc
    rw [hlen]
    by_cases hi : i = src
    · subst hi
      rw [hvsrc] at hc
      rcases Finset.mem_insert.mp hc with hc | hc
      · omega
      · exact hWF.children_lt i c hc
    · by_cases hj : i = dst
      · subst hj
        rw [hvdst] at hc
        exact hWF.children_lt i c hc
      · rw [hvother i hi hj] at hc
        exact hWF.children_lt i c hc
  · intro i p hp
    rw [hlen]
    by_cases hi : i = src
    · subst hi
      rw [hvsrc] at hp
      exact hWF.parents_lt i p hp
    · by_cases hj : i = dst
      · subst hj
        rw [hvdst] at hp
        rcases Finset.mem_insert.mp hp with hp | hp
        · omega
        · exact hWF.parents_lt i p hp
      · rw [hvother i hi hj] at hp
        exact hWF.parents_lt i p hp
  · intro q j hq
    rw [hkm] at hq
    rw [hlen]
    exact hWF.lookup_lt q j hq
  · intro j hj
    rw [hready] at hj
    rw [hlen]
    by_cases hz : (d.vert dst).parents_outstanding +
        (if (d.vert src).state = .Completed then 0 else 1) = 0
    · rw [if_pos hz] at hj
      rcases Finset.mem_insert.mp hj with hj | hj
      · omega
      · exact hWF.ready_lt j hj
    · rw [if_neg hz] at hj
      exact hWF.ready_lt j (Finset.mem_of_mem_erase hj)
  · intro j hj
    rw [hvis] at hj
    rw [hlen]
    exact hWF.visiting_lt j hj

theorem WF_addEdge {d d' : DAG T} {s t : T} (h : addEdge d s t = .ok d') : WF d → WF d' := by
  intro hWF
  obtain ⟨src, dst, hs, ht, hfalse, hd'⟩ := addEdge_ok h
  have hsrc := hWF.lookup_lt s src hs
  have hdst := hWF.lookup_lt t dst ht
  have hne : src ≠ dst := by
    intro he
    subst he
    rw [hasPathAux_self] at hfalse
    exact absurd hfalse (by simp)
  exact hd' ▸ WF_addEdgeApply hWF hsrc hdst hne

theorem WF_reset {d : DAG T} (hWF : WF d) : WF (reset d) := by
  have hlen : (reset d).vertices.length = d.vertices.length := List.length_map ..
  refine ⟨?_, ?_, ?_, ?_, ?_⟩
  · intro i c hc
    rw [vert_reset] at hc
    rw [hlen]
    exact hWF.children_lt i c hc
  · intro i p hp
    rw [vert_reset] at hp
    rw [hlen]
    exact hWF.parents_lt i p hp
  · intro q j hq
    rw [hlen]
    exact hWF.lookup_lt q j hq
  · intro j hj
    rcases Finset.mem_union.mp hj with hj | hj
    · rw [hlen]
      exact hWF.ready_lt j hj
    · rw [hlen]
      exact Finset.mem_range.mp (Finset.mem_of_mem_filter j hj)
  · intro j hj
    rw [hlen]
    exact hWF.visiting_lt j hj

theorem WF_visitNextAt {d : DAG T} {idx : Nat} (hWF : WF d) (hin : idx ∈ d.ready) :
    WF (visitNextAt d idx) := by
  have hidx := hWF.ready_lt idx hin
  have hlenV : (visitNextAt d idx).vertices.length = d.vertices.length :=
    List.length_set ..
  have base := WF_modify_frame hWF idx
    (fun v => { v with state := .Running }) (fun v => ⟨rfl, rfl⟩)
  refine ⟨base.children_lt, base.parents_lt, base.lookup_lt, ?_, ?_⟩
  · intro j hj
    exact base.ready_lt j (Finset.mem_of_mem_erase hj)
  · intro j hj
    rw [hlenV]
    rcases Finset.mem_insert.mp hj with hj | hj
    · omega
    · rw [← hlenV]
      exact base.visiting_lt j hj

theorem WF_completeVisit {d d' : DAG T} {key : T} {e : Bool}
    (h : completeVisit d key e = .ok d') : WF d → WF d' := by
  intro hWF
  cases hl : lookupKey d.keymap key with
  | none =>
    rw [completeVisit_unknown d key e hl] at h
    exact absurd h (by simp)
  | some idx =>
    have hidx := hWF.lookup_lt key idx hl
    by_cases hin : idx ∈ d.visiting
    · have hE : WF ({ d with visiting := d.visiting.erase idx } : DAG T) := by
        refine ⟨hWF.children_lt, hWF.parents_lt, hWF.lookup_lt, hWF.ready_lt, ?_⟩
        intro j hj
        exact hWF.visiting_lt j (Finset.mem_of_mem_erase hj)
      by_cases hC : (d.vert idx).state = .Completed
      · rw [completeVisit_noop d key e hl hin hC] at h
        injection h with h
        exact h ▸ hE
      · cases e with
        | true =>
          rw [completeVisit_errored d key hl hin hC] at h
          injection h with h
          exact h ▸ WF_modify_frame hE idx _ (fun v => ⟨rfl, rfl⟩)
        | false =>
          rw [completeVisit_ok d key hl hin hC] at h
          injection h with h
          subst h
          set d1 : DAG T := ({ d with visiting := d.visiting.erase idx }).modifyVert idx
            (fun v => { v with state := .Completed }) with hd1
          have h1 : WF d1 := WF_modify_frame hE idx _ (fun v => ⟨rfl, rfl⟩)
          have hlen1 : d1.vertices.length = d.vertices.length := by
            rw [hd1, length_modifyVert]
          set cs : List Nat := sortedList (d1.vert idx).children with hcs
          have hltcs : ∀ c ∈ cs, c < d1.vertices.length := fun c hc =>
            h1.children_lt idx c (mem_sortedList.mp hc)
          have hndcs : cs.Nodup := nodup_sortedList _
          have hlenF : (cs.foldl releaseChild d1).vertices.length = d1.vertices.length :=
            foldl_release_length ..
          refine ⟨?_, ?_, ?_, ?_, ?_⟩
          · intro i c hc
            rw [foldl_release_vert cs d1 hltcs hndcs i] at hc
            rw [hlenF]
            split at hc <;> exact h1.children_lt i c hc
          · intro i p hp
            rw [foldl_release_vert cs d1 hltcs hndcs i] at hp
            rw [hlenF]
            split at hp <;> exact h1.parents_lt i p hp
          · intro q j hq
            rw [foldl_release_keymap] at hq
            rw [hlenF]
            exact h1.lookup_lt q j hq
          · intro j hj
            rw [foldl_release_ready cs d1 hltcs hndcs j] at hj
            rw [hlenF]
            rcases hj with hj | ⟨hj, -⟩
            · exact h1.ready_lt j hj
            · exact hltcs j hj
          · intro j hj
            rw [foldl_release_visiting] at hj
            rw [hlenF]
            exact h1.visiting_lt j hj
    · rw [completeVisit_notVisiting d key e hl hin] at h
      exact absurd h (by simp)

theorem WF_setVertexState {d : DAG T} (key : T) (st : State) (hWF : WF d) :
    WF (setVertexState d key st).2 := by
  rw [setVertexState]
  cases hl : lookupKey d.keymap key with
  | none => exact hWF
  | some idx =>
    have hidx := hWF.lookup_lt key idx hl
    dsimp only
    by_cases heq : (d.vert idx).state = st
    · rw [if_pos heq]
      exact hWF
    rw [if_neg heq]
    have hd1 : WF ({ d with ready := d.ready.erase idx, visiting := d.visiting.erase idx } :
        DAG T) := by
      refine ⟨hWF.children_lt, hWF.parents_lt, hWF.lookup_lt, ?_, ?_⟩
      · intro j hj
        exact hWF.ready_lt j (Finset.mem_of_mem_erase hj)
      · intro j hj
        exact hWF.visiting_lt j (Finset.mem_of_mem_erase hj)
    have hq : WF ({ d with ready := insert idx d.ready } : DAG T) := by
      refine ⟨hWF.children_lt, hWF.parents_lt, hWF.lookup_lt, ?_, hWF.visiting_lt⟩
      intro j hj
      rcases Finset.mem_insert.mp hj with hj | hj
      · exact hj ▸ hidx
      · exact hWF.ready_lt j hj
    have harm : ∀ (b : Bool) (st2 : State),
        WF ((match completeVisit
              ({ d with ready := d.ready.erase idx, visiting := d.visiting.erase idx } : DAG T)
              key b with
          | Except.error e =>
            ((Except.error e : Except DagError Unit),
              ({ d with ready := d.ready.erase idx, visiting := d.visiting.erase idx } : DAG T))
          | Except.ok d2 =>
            ((Except.ok () : Except DagError Unit),
              d2.modifyVert idx fun v => { v with state := st2 }))).2 := by
      intro b st2
      cases hc : completeVisit
          ({ d with ready := d.ready.erase idx, visiting := d.visiting.erase idx } : DAG T)
          key b with
      | error e => exact hd1
      | ok d2 =>
        exact WF_modify_frame (WF_completeVisit hc hd1) idx
          (fun v => { v with state := st2 }) (fun v => ⟨rfl, rfl⟩)
    cases st <;> cases hcur : (d.vert idx).state <;>
      first
      | exact hWF
      | exact harm true _
      | exact harm false _
      | exact WF_modify_frame hq idx
          (fun v => { v with state := .Queued }) (fun v => ⟨rfl, rfl⟩)

theorem WF_reachable {d : DAG T} (h : DagReachable d) : WF d := by
  induction h with
  | empty => exact WF_new
  | addVertexOk _ hok ih => exact WF_addVertex hok ih
  | addVerticesAny _ ih => exact WF_addVertices _ ih
  | addEdgeOk _ hok ih => exact WF_addEdge hok ih
  | resetAny _ ih => exact WF_reset ih
  | visitAt _ hin ih => exact WF_visitNextAt ih hin
  | completeOk _ hok ih => exact WF_completeVisit hok ih
  | setStateAny _ ih => exact WF_setVertexState _ _ ih

/-! ### Acyclicity is an invariant of the public interface -/

theorem acyclic_of_children_eq {d d' : DAG T}
    (hc : ∀ j, (d'.vert j).children = (d.vert j).children) (h : AcyclicDag d) :
    AcyclicDag d' := by
  intro i hcyc
  refine h i (Relation.TransGen.mono ?_ hcyc)
  intro a b hab
  rw [edgeRel, ← hc a]
  exact hab

theorem children_modifyVert (d : DAG T) (i : Nat) (f : Vertex T → Vertex T)
    (hf : ∀ v, (f v).children = v.children) (j : Nat) :
    ((d.modifyVert i f).vert j).children = (d.vert j).children := by
  rw [vert_modifyVert]
  split
  · rename_i hij
    rw [hf]
    rw [hij.1]
  · rfl

theorem children_releaseChild (d : DAG T) (c j : Nat) :
    ((releaseChild d c).vert j).children = (d.vert j).children := by
  unfold releaseChild
  dsimp only
  split <;>
  · show ((DAG.modifyVert d c fun v =>
        { v with parents_outstanding := v.parents_outstanding - 1 }).vert j).children = _
    exact children_modifyVert d c
      (fun v => { v with parents_outstanding := v.parents_outstanding - 1 })
      (fun v => rfl) j

theorem children_foldl_release (cs : List Nat) (d : DAG T) (j : Nat) :
    (((cs.foldl releaseChild d).vert j)).children = ((d.vert j)).children := by
  induction cs generalizing d with
  | nil => rfl
  | cons c cs ih => rw [List.foldl_cons, ih, children_releaseChild]

theorem children_completeVisit {d d' : DAG T} {key : T} {e : Bool}
    (h : completeVisit d key e = .ok d') (j : Nat) :
    (d'.vert j).children = (d.vert j).children := by
  cases hl : lookupKey d.keymap key with
  | none =>
    rw [completeVisit_unknown d key e hl] at h
    exact absurd h (by simp)
  | some idx =>
    by_cases hin : idx ∈ d.visiting
    · by_cases hC : (d.vert idx).state = .Completed
      · rw [completeVisit_noop d key e hl hin hC] at h
        injection h with h
        rw [← h]
        rfl
      · cases e with
        | true =>
          rw [completeVisit_errored d key hl hin hC] at h
          injection h with h
          rw [← h]
          exact children_modifyVert ({ d with visiting := d.visiting.erase idx } : DAG T) idx
            (fun v => { v with state := .Errored }) (fun v => rfl) j
        | false =>
          rw [completeVisit_ok d key hl hin hC] at h
          injection h with h
          rw [← h, children_foldl_release]
          exact children_modifyVert ({ d with visiting := d.visiting.erase idx } : DAG T) idx
            (fun v => { v with state := .Completed }) (fun v => rfl) j
    · rw [completeVisit_notVisiting d key e hl hin] at h
      exact absurd h (by simp)

theorem children_setVertexState (d : DAG T) (key : T) (st : State) (j : Nat) :
    ((setVertexState d key st).2.vert j).children = (d.vert j).children := by
  rw [setVertexState]
  cases hl : lookupKey d.keymap key with
  | none => rfl
  | some idx =>
    dsimp only
    by_cases heq : (d.vert idx).state = st
    · rw [if_pos heq]
    rw [if_neg heq]
    have harm : ∀ (b : Bool) (st2 : State),
        (((match completeVisit
              ({ d with ready := d.ready.erase idx, visiting := d.visiting.erase idx } : DAG T)
              key b with
          | Except.error e =>
            ((Except.error e : Except DagError Unit),
              ({ d with ready := d.ready.erase idx, visiting := d.visiting.erase idx } : DAG T))
          | Except.ok d2 =>
            ((Except.ok () : Except DagError Unit),
              d2.modifyVert idx fun v => { v with state := st2 }))).2.vert j).children =
          (d.vert j).children := by
      intro b st2
      cases hc : completeVisit
          ({ d with ready := d.ready.erase idx, visiting := d.visiting.erase idx } : DAG T)
          key b with
      | error e => rfl
      | ok d2 =>
        have h1 := children_completeVisit hc j
        have h2 := children_modifyVert d2 idx (fun v => { v with state := st2 })
          (fun v => rfl) j
        exact h2.trans h1
    
    cases st <;> cases hcur : (d.vert idx).state <;>
      first
      | rfl
      | exact harm true _
      | exact harm false _
      | exact children_modifyVert _ idx (fun v => { v with state := .Queued })
          (fun v => rfl) j

theorem children_addVertex {d d' : DAG T} {k : T} (h : addVertex d k = .ok d') (j : Nat) :
    (d'.vert j).children = (d.vert j).children := by
  obtain ⟨-, hv, -, -, -⟩ := addVertex_ok h
  show (d'.vertices.getD j default).children = ((d.vertices.getD j default)).children
  rw [hv, vert_append]
  rcases Nat.lt_trichotomy j d.vertices.length with hj | hj | hj
  · rw [if_pos hj]
  · have hdj : d.vertices.getD j default = default := by
      rw [List.getD_eq_getElem?_getD, List.getElem?_eq_none (by omega)]
      rfl
    rw [if_neg (by omega), if_pos hj, hdj]
    rfl
  · have hdj : d.vertices.getD j default = default := by
      rw [List.getD_eq_getElem?_getD, List.getElem?_eq_none (by omega)]
      rfl
    rw [if_neg (by omega), if_neg (by omega), hdj]

theorem acyclic_new : AcyclicDag (DAG.new T) := by
  intro i hcyc
  cases hcyc with
  | single h => exact absurd h (Finset.not_mem_empty _)
  | tail h1 h2 => exact absurd h2 (Finset.not_mem_empty _)

theorem reach_insert_decompose {d dn : DAG T} {src dst : Nat}
    (hr : ∀ a b, edgeRel dn a b ↔ edgeRel d a b ∨ (a = src ∧ b = dst)) :
    ∀ a b, Relation.ReflTransGen (edgeRel dn) a b →
      Relation.ReflTransGen (edgeRel d) a b ∨
        (Relation.ReflTransGen (edgeRel d) a src ∧
          Relation.ReflTransGen (edgeRel d) dst b) := by
  intro a b hab
  induction hab with
  | refl => exact Or.inl Relation.ReflTransGen.refl
  | tail h1 h2 ih =>
    rename_i c b
    rcases (hr c b).mp h2 with he | ⟨hc, hb⟩
    · rcases ih with ih | ⟨ih1, ih2⟩
      · exact Or.inl (ih.tail he)
      · exact Or.inr ⟨ih1, ih2.tail he⟩
    · subst hc
      subst hb
      rcases ih with ih | ⟨ih1, -⟩
      · exact Or.inr ⟨ih, Relation.ReflTransGen.refl⟩
      · exact Or.inr ⟨ih1, Relation.ReflTransGen.refl⟩

theorem acyclic_insert_edge {d dn : DAG T} {src dst : Nat}
    (hr : ∀ a b, edgeRel dn a b ↔ edgeRel d a b ∨ (a = src ∧ b = dst))
    (hacy : AcyclicDag d)
    (hnp : ¬Relation.ReflTransGen (edgeRel d) dst src) : AcyclicDag dn := by
  intro i hcyc
  rw [Relation.TransGen.head'_iff] at hcyc
  obtain ⟨c, hic, hci⟩ := hcyc
  rcases (hr i c).mp hic with he | ⟨h1, h2⟩
  · rcases reach_insert_decompose hr c i hci with hp | ⟨hp1, hp2⟩
    · exact hacy i (Relation.TransGen.head' he hp)
    · exact hnp (hp2.trans (Relation.ReflTransGen.head he hp1))
  · rcases reach_insert_decompose hr c i hci with hp | ⟨hp1, -⟩
    · exact hnp (h1 ▸ h2 ▸ hp)
    · exact hnp (h2 ▸ hp1)

theorem edgeRel_addEdgeApply {d : DAG T} {src dst : Nat}
    (hsrc : src < d.vertices.length) (hdst : dst < d.vertices.length) (hne : src ≠ dst) :
    ∀ a b, edgeRel (addEdgeApply d src dst) a b ↔
      edgeRel d a b ∨ (a = src ∧ b = dst) := by
  obtain ⟨-, -, -, hvsrc, hvdst, hvother, -⟩ := addEdgeApply_spec d hsrc hdst hne
  intro a b
  by_cases ha : a = src
  · subst ha
    rw [edgeRel, edgeRel, hvsrc]
    show b ∈ insert dst (d.vert a).children ↔ _
    rw [Finset.mem_insert]
    constructor
    · rintro (h | h)
      · exact Or.inr ⟨rfl, h⟩
      · exact Or.inl h
    · rintro (h | ⟨-, h⟩)
      · exact Or.inr h
      · exact Or.inl h
  · by_cases hb : a = dst
    · subst hb
      rw [edgeRel, edgeRel, hvdst]
      constructor
      · intro h
        exact Or.inl h
      · rintro (h | ⟨h, -⟩)
        · exact h
        · exact absurd h ha
    · rw [edgeRel, edgeRel, hvother a ha hb]
      constructor
      · intro h
        exact Or.inl h
      · rintro (h | ⟨h, -⟩)
        · exact h
        · exact absurd h ha

theorem acyclic_addEdge {d d' : DAG T} {s t : T} (hWF : WF d)
    (h : addEdge d s t = .ok d') (hacy : AcyclicDag d) : AcyclicDag d' := by
  obtain ⟨src, dst, hs, ht, hfalse, hd'⟩ := addEdge_ok h
  have hsrc := hWF.lookup_lt s src hs
  have hdst := hWF.lookup_lt t dst ht
  have hne : src ≠ dst := by
    intro he
    subst he
    rw [hasPathAux_self] at hfalse
    exact absurd hfalse (by simp)
  have hnp : ¬Reach d dst src :=
    hasPathAux_complete hWF.children_lt hdst hfalse
  subst hd'
  exact acyclic_insert_edge (edgeRel_addEdgeApply hsrc hdst hne) hacy hnp

theorem acyclic_addVertices {d : DAG T} (ks : List T) (hWF : WF d) (h : AcyclicDag d) :
    AcyclicDag (addVertices d ks).2 := by
  induction ks generalizing d with
  | nil => exact h
  | cons k ks ih =>
    rw [addVertices]
    cases hk : addVertex d k with
    | error e => exact h
    | ok d' =>
      exact ih (WF_addVertex hk hWF) (acyclic_of_children_eq (children_addVertex hk) h)

/-- Every reachable DAG state has an acyclic edge relation. -/
theorem acyclic_reachable {d : DAG T} (h : DagReachable d) : AcyclicDag d := by
  induction h with
  | empty => exact acyclic_new
  | addVertexOk hprev hok ih =>
    exact acyclic_of_children_eq (children_addVertex hok) ih
  | addVerticesAny hprev ih =>
    exact acyclic_addVertices _ (WF_reachable hprev) ih
  | addEdgeOk hprev hok ih => exact acyclic_addEdge (WF_reachable hprev) hok ih
  | resetAny hprev ih =>
    exact acyclic_of_children_eq (fun j => by rw [vert_reset]) ih
  | visitAt hprev hin ih =>
    rename_i dp idx
    refine acyclic_of_children_eq (fun j => ?_) ih
    show ((DAG.modifyVert dp idx
      (fun v => { v with state := .Running })).vert j).children = _
    exact children_modifyVert dp idx
      (fun v => { v with state := .Running }) (fun v => rfl) j
  | completeOk hprev hok ih =>
    exact acyclic_of_children_eq (fun j => children_completeVisit hok j) ih
  | setStateAny hprev ih =>
    exact acyclic_of_children_eq (fun j => children_setVertexState _ _ _ j) ih

/-! ## Claims C3 and C5 -/

/-- C3: `add_edge(src, dst)` fails with `UnknownKey` when either key is
absent and with `Cycle` when a path from dst to src already exists; on
success, a non-`Completed` source increments dst's outstanding counter
and evicts dst from the ready set, an already-`Completed` source leaves
every outstanding counter unchanged, and afterwards dst is in the ready
set iff its counter is zero. -/
theorem add_edge_contract (d : DAG T) (sk dk : T) (hWF : WF d) :
    ((lookupKey d.keymap sk = none ∨ lookupKey d.keymap dk = none) →
      addEdge d sk dk = .error .UnknownKey)
    ∧ (∀ src dst, lookupKey d.keymap sk = some src →
        lookupKey d.keymap dk = some dst → Reach d dst src →
        addEdge d sk dk = .error .Cycle)
    ∧ (∀ src dst, lookupKey d.keymap sk = some src →
        lookupKey d.keymap dk = some dst → ¬Reach d dst src →
        ∃ d', addEdge d sk dk = .ok d' ∧
          ((d.vert src).state ≠ .Completed →
            (d'.vert dst).parents_outstanding = (d.vert dst).parents_outstanding + 1
            ∧ dst ∉ d'.ready)
          ∧ ((d.vert src).state = .Completed →
              ∀ j, (d'.vert j).parents_outstanding = (d.vert j).parents_outstanding)
          ∧ (dst ∈ d'.ready ↔ (d'.vert dst).parents_outstanding = 0)) := by
  refine ⟨?_, ?_, ?_⟩
  · rintro (h | h)
    · cases hd : lookupKey d.keymap dk with
      | none => rw [addEdge, hasPath, hd]
      | some dst =>
        rw [addEdge, hasPath, hd]
        dsimp only
        rw [h]
    · rw [addEdge, hasPath, h]
  · intro src dst hs hd hreach
    have hdst := hWF.lookup_lt dk dst hd
    have htrue : (hasPathAux d src (d.vertices.length + 1) dst ∅).1 = true :=
      (hasPathAux_iff hWF.children_lt hdst).mpr hreach
    rw [addEdge, hasPath, hd]
    dsimp only
    rw [hs]
    dsimp only
    rw [htrue]
  · intro src dst hs hd hreach
    have hsrc := hWF.lookup_lt sk src hs
    have hdst := hWF.lookup_lt dk dst hd
    have hne : src ≠ dst := fun he => hreach (he ▸ Relation.ReflTransGen.refl)
    have hfalse : (hasPathAux d src (d.vertices.length + 1) dst ∅).1 = false := by
      cases hb : (hasPathAux d src (d.vertices.length + 1) dst ∅).1 with
      | false => rfl
      | true => exact absurd (hasPathAux_sound _ _ _ hb) hreach
    have hok : addEdge d sk dk = .ok (addEdgeApply d src dst) := by
      rw [addEdge, hasPath, hd]
      dsimp only
      rw [hs]
      dsimp only
      rw [hfalse]
    obtain ⟨-, -, -, hvsrc, hvdst, hvother, hready⟩ := addEdgeApply_spec d hsrc hdst hne
    refine ⟨_, hok, ?_, ?_, ?_⟩
    · intro hnc
      rw [if_neg hnc] at hvdst hready
      constructor
      · rw [hvdst]
      · rw [hready, if_neg (by omega)]
        exact Finset.not_mem_erase dst d.ready
    · intro hc
      rw [if_pos hc] at hvdst
      intro j
      by_cases hjs : j = src
      · subst hjs
        rw [hvsrc]
      · by_cases hjd : j = dst
        · subst hjd
          rw [hvdst]
          simp
        · rw [hvother j hjs hjd]
    · rw [hready]
      by_cases hz : (d.vert dst).parents_outstanding +
          (if (d.vert src).state = .Completed then 0 else 1) = 0
      · rw [if_pos hz, hvdst]
        simp [hz]
      · rw [if_neg hz, hvdst]
        constructor
        · intro hmem
          exact absurd hmem (Finset.not_mem_erase dst d.ready)
        · intro h0
          exact absurd h0 hz

/-- Witness for C3 at concrete inputs: an unknown key errors; adding
`2→1` to the chain state `dagC3b` (which has `1→2`) errors with
`Cycle`; adding `0→1` from the `Completed` vertex `0` leaves the
counter of `1` at zero and keeps `1` ready; adding `1→2` from the
`Queued` vertex `1` raises the counter of `2` to one and evicts `2`. -/
theorem add_edge_contract_witness :
    addEdge dagC3 (9 : Nat) 0 = .error .UnknownKey
    ∧ addEdge dagC3b (2 : Nat) 1 = .error .Cycle
    ∧ ((addEdge dagC3 (0 : Nat) 1).toOption.map fun d' =>
        ((d'.vert 1).parents_outstanding, decide (1 ∈ d'.ready))) = some (0, true)
    ∧ ((addEdge dagC3 (1 : Nat) 2).toOption.map fun d' =>
        ((d'.vert 2).parents_outstanding, decide (2 ∈ d'.ready))) = some (1, false) := by
  have h0 : DagReachable ((addVertices (DAG.new Nat) [0, 1, 2]).2) :=
    DagReachable.addVerticesAny DagReachable.empty
  have h1 : DagReachable (visitNextAt (addVertices (DAG.new Nat) [0, 1, 2]).2 0) :=
    DagReachable.visitAt h0 (by decide)
  have hcv : completeVisit (visitNextAt (addVertices (DAG.new Nat) [0, 1, 2]).2 0) 0 false
      = .ok dagC3 := by decide
  have hreach3 : DagReachable dagC3 := DagReachable.completeOk h1 hcv
  have hae : addEdge dagC3 1 2 = .ok dagC3b := by decide
  have hreach3b : DagReachable dagC3b := DagReachable.addEdgeOk hreach3 hae
  have hWF3 : WF dagC3 := WF_reachable hreach3
  have hWF3b : WF dagC3b := WF_reachable hreach3b
  refine ⟨(add_edge_contract dagC3 9 0 hWF3).1 (Or.inl (by decide)), ?_, ?_, ?_⟩
  · exact (add_edge_contract dagC3b 2 1 hWF3b).2.1 2 1 (by decide) (by decide)
      (Relation.ReflTransGen.single (by decide))
  · obtain ⟨d', hok, -, hcomp, hiff⟩ :=
      (add_edge_contract dagC3 0 1 hWF3).2.2 0 1 (by decide) (by decide)
        (hasPathAux_complete hWF3.children_lt (by decide) (by decide))
    rw [hok]
    have hc1 : (d'.vert 1).parents_outstanding = 0 := by
      rw [hcomp (by decide) 1]
      decide
    have hr1 : 1 ∈ d'.ready := hiff.mpr hc1
    simp only [Except.toOption, Option.map]
    rw [hc1, decide_eq_true hr1]
  · obtain ⟨d', hok, hni, -, hiff⟩ :=
      (add_edge_contract dagC3 1 2 hWF3).2.2 1 2 (by decide) (by decide)
        (hasPathAux_complete hWF3.children_lt (by decide) (by decide))
    rw [hok]
    obtain ⟨hc2, hr2⟩ := hni (by decide)
    have hc2' : (d'.vert 2).parents_outstanding = 1 := by
      rw [hc2]
      decide
    simp only [Except.toOption, Option.map]
    rw [hc2', decide_eq_false hr2]

/-- C5: every reachable DAG state is acyclic; after every successful
`add_edge(src, dst)` there is no directed path from dst back to src;
and `has_path` fails with `UnknownKey` when either end is unknown and
otherwise answers exactly whether a directed path exists. -/
theorem acyclicity_invariant :
    (∀ d : DAG T, DagReachable d → AcyclicDag d)
    ∧ (∀ (d d' : DAG T) (s t : T) (src dst : Nat), DagReachable d →
        addEdge d s t = .ok d' →
        lookupKey d.keymap s = some src → lookupKey d.keymap t = some dst →
        ¬Reach d' dst src)
    ∧ (∀ (d : DAG T) (sk dk : T), DagReachable d →
        ((lookupKey d.keymap sk = none ∨ lookupKey d.keymap dk = none) →
          hasPath d sk dk = .error .UnknownKey)
        ∧ (∀ src dst, lookupKey d.keymap sk = some src →
            lookupKey d.keymap dk = some dst →
            ∃ b, hasPath d sk dk = .ok b ∧ (b = true ↔ Reach d src dst))) := by
  refine ⟨fun d h => acyclic_reachable h, ?_, ?_⟩
  · intro d d' s t src dst hreach hok hs ht hpath
    obtain ⟨src', dst', hs', ht', hfalse, hd'⟩ := addEdge_ok hok
    have hsrcs : src' = src := by
      rw [hs] at hs'
      injection hs' with h
      exact h.symm
    have hdstd : dst' = dst := by
      rw [ht] at ht'
      injection ht' with h
      exact h.symm
    rw [hsrcs] at hfalse
    rw [hsrcs, hdstd] at hd'
    rw [hdstd] at hfalse
    have hWF := WF_reachable hreach
    have hsrc := hWF.lookup_lt s src hs
    have hdst := hWF.lookup_lt t dst ht
    have hne : src ≠ dst := by
      intro he
      subst he
      rw [hasPathAux_self] at hfalse
      exact absurd hfalse (by simp)
    have hacy' : AcyclicDag d' := acyclic_reachable (DagReachable.addEdgeOk hreach hok)
    have hedge : edgeRel d' src dst := by
      rw [hd', (edgeRel_addEdgeApply hsrc hdst hne) src dst]
      exact Or.inr ⟨rfl, rfl⟩
    rcases Relation.reflTransGen_iff_eq_or_transGen.mp hpath with he | htg
    · exact hne he
    · exact hacy' src (Relation.TransGen.head hedge htg)
  · intro d sk dk hreach
    have hWF := WF_reachable hreach
    refine ⟨?_, ?_⟩
    · rintro (h | h)
      · rw [hasPath, h]
      · cases hsv : lookupKey d.keymap sk with
        | none => rw [hasPath, hsv]
        | some src =>
          rw [hasPath, hsv]
          dsimp only
          rw [h]
    · intro src dst hs hd
      refine ⟨_, by rw [hasPath, hs, hd], ?_⟩
      exact hasPathAux_iff hWF.children_lt (hWF.lookup_lt sk src hs)

/-- Witness for C5 at a concrete input: the reachable chain `0→1→2` is
acyclic, after the successful `add_edge(1, 2)` there is no path from
`2` back to `1`, `has_path` rejects an unknown key, and it confirms
the path from `0` to `2`. -/
theorem acyclicity_invariant_witness :
    AcyclicDag dagC5
    ∧ ¬Reach dagC5 2 1
    ∧ hasPath dagC5 (7 : Nat) 0 = .error .UnknownKey
    ∧ Reach dagC5 0 2 := by
  have h0 : DagReachable ((addVertices (DAG.new Nat) [0, 1, 2]).2) :=
    DagReachable.addVerticesAny DagReachable.empty
  have he1 : addEdge (addVertices (DAG.new Nat) [0, 1, 2]).2 0 1 = .ok dagC5a := by decide
  have h1 : DagReachable dagC5a := DagReachable.addEdgeOk h0 he1
  have he2 : addEdge dagC5a 1 2 = .ok dagC5 := by decide
  have h2 : DagReachable dagC5 := DagReachable.addEdgeOk h1 he2
  obtain ⟨ha, hb, hc⟩ := @acyclicity_invariant Nat instDecidableEqNat instInhabitedNat
  refine ⟨ha dagC5 h2, hb dagC5a dagC5 1 2 1 2 h1 he2 (by decide) (by decide), ?_, ?_⟩
  · exact (hc dagC5 7 0 h2).1 (Or.inl (by decide))
  · obtain ⟨b, hok, hiff⟩ := (hc dagC5 0 2 h2).2 0 2 (by decide) (by decide)
    have hcomp : hasPath dagC5 (0 : Nat) 2 = .ok true := by decide
    rw [hcomp] at hok
    injection hok with hok
    exact hiff.mp hok.symm

/-! ### The build-phase invariant -/

theorem inv_new : TraverseInv (DAG.new T) ∧ AllQueued (DAG.new T) := by
  constructor
  · have hlen : (DAG.new T).vertices.length = 0 := rfl
    refine ⟨WF_new, ?_, ?_, ?_, ?_, ?_, ?_⟩
    · intro i hi
      rw [hlen] at hi
      omega
    · intro i hi
      exact absurd hi (Finset.not_mem_empty i)
    · intro i hi
      rw [hlen] at hi
      omega
    · intro i hi
      rw [hlen] at hi
      omega
    · intro i hi
      rw [hlen] at hi
      omega
    · intro i
      exact Finset.not_mem_empty i
  · intro i
    rfl

theorem length_addVertex {d d' : DAG T} {k : T} (h : addVertex d k = .ok d') :
    d'.vertices.length = d.vertices.length + 1 := by
  obtain ⟨-, hv, -, -, -⟩ := addVertex_ok h
  rw [hv]
  simp

theorem vert_addVertex {d d' : DAG T} {k : T} (h : addVertex d k = .ok d') (i : Nat) :
    d'.vert i = if i < d.vertices.length then d.vert i
      else if i = d.vertices.length then Vertex.new k else default := by
  obtain ⟨-, hv, -, -, -⟩ := addVertex_ok h
  show d'.vertices.getD i default = _
  rw [hv, vert_append]
  rfl

theorem inv_addVertex {d d' : DAG T} {k : T} (h : addVertex d k = .ok d')
    (hinv : TraverseInv d) (hq : AllQueued d) : TraverseInv d' ∧ AllQueued d' := by
  obtain ⟨-, -, -, hr, hvis⟩ := addVertex_ok h
  have hlen := length_addVertex h
  have hvert := vert_addVertex h
  have hq' : AllQueued d' := by
    intro i
    rw [hvert i]
    split
    · exact hq i
    · split
      · rfl
      · rfl
  refine ⟨⟨WF_addVertex h hinv.wf, ?_, ?_, ?_, ?_, ?_, ?_⟩, hq'⟩
  · intro i hi
    rw [hr]
    by_cases hin : i = d.vertices.length
    · rw [hvert i, if_neg (by omega), if_pos hin]
      constructor
      · intro _
        exact ⟨rfl, rfl⟩
      · intro _
        rw [hin]
        exact Finset.mem_insert_self ..
    · have hilt : i < d.vertices.length := by omega
      rw [hvert i, if_pos hilt, Finset.mem_insert]
      constructor
      · rintro (hh | hh)
        · exact absurd hh hin
        · exact (hinv.sound i hilt).mp hh
      · intro hh
        exact Or.inr ((hinv.sound i hilt).mpr hh)
  · intro i hi
    rw [hvis] at hi
    have hilt := hinv.wf.visiting_lt i hi
    rw [hvert i, if_pos hilt]
    exact hinv.visRun i hi
  · intro i hi hne
    exact absurd (hq' i) hne
  · intro i hi
    by_cases hin : i = d.vertices.length
    · have hp : (d'.vert i).parents = ∅ := by
        rw [hvert i, if_neg (by omega), if_pos hin]
        rfl
      rw [pendingParents, hp]
      simp
    · have hilt : i < d.vertices.length := by omega
      have hpe : pendingParents d' i = pendingParents d i := by
        rw [pendingParents, pendingParents, hvert i, if_pos hilt]
        refine Finset.filter_congr ?_
        intro p hp
        have hplt := hinv.wf.parents_lt i p hp
        rw [hvert p, if_pos hplt]
      rw [hpe, hvert i, if_pos hilt]
      exact hinv.cge i hilt
  · intro i hi c hc
    by_cases hin : i = d.vertices.length
    · have hch : (d'.vert i).children = ∅ := by
        rw [hvert i, if_neg (by omega), if_pos hin]
        rfl
      rw [hch]
      by_cases hcn : c = d.vertices.length
      · have hcp : (d'.vert c).parents = ∅ := by
          rw [hvert c, if_neg (by omega), if_pos hcn]
          rfl
        rw [hcp]
        simp
      · have hclt : c < d.vertices.length := by omega
        rw [hvert c, if_pos hclt]
        constructor
        · intro hh
          exact absurd hh (Finset.not_mem_empty c)
        · intro hh
          have := hinv.wf.parents_lt c i hh
          omega
    · have hilt : i < d.vertices.length := by omega
      by_cases hcn : c = d.vertices.length
      · have hcp : (d'.vert c).parents = ∅ := by
          rw [hvert c, if_neg (by omega), if_pos hcn]
          rfl
        rw [hvert i, if_pos hilt, hcp]
        constructor
        · intro hh
          have := hinv.wf.children_lt i c hh
          omega
        · intro hh
          exact absurd hh (Finset.not_mem_empty i)
      · have hclt : c < d.vertices.length := by omega
        rw [hvert i, if_pos hilt, hvert c, if_pos hclt]
        exact hinv.sym i hilt c hclt
  · intro i
    rw [hvert i]
    split
    · exact hinv.irr i
    · split
      · show i ∉ (∅ : Finset Nat)
        exact Finset.not_mem_empty i
      · show i ∉ (∅ : Finset Nat)
        exact Finset.not_mem_empty i

theorem inv_addVertices {d : DAG T} (ks : List T) (hinv : TraverseInv d)
    (hq : AllQueued d) : TraverseInv (addVertices d ks).2 ∧ AllQueued (addVertices d ks).2 := by
  induction ks generalizing d with
  | nil => exact ⟨hinv, hq⟩
  | cons k ks ih =>
    rw [addVertices]
    cases h : addVertex d k with
    | error e => exact ⟨hinv, hq⟩
    | ok d' =>
      obtain ⟨h1, h2⟩ := inv_addVertex h hinv hq
      exact ih h1 h2

theorem pendingParents_allQueued {d : DAG T} (hq : AllQueued d) (i : Nat) :
    pendingParents d i = (d.vert i).parents := by
  refine Finset.filter_true_of_mem ?_
  intro p hp
  rw [hq p]
  simp

theorem inv_addEdge {d d' : DAG T} {s t : T} (h : addEdge d s t = .ok d')
    (hinv : TraverseInv d) (hq : AllQueued d) : TraverseInv d' ∧ AllQueued d' := by
  obtain ⟨src, dst, hs, ht, hfalse, hd'⟩ := addEdge_ok h
  have hsrc := hinv.wf.lookup_lt s src hs
  have hdst := hinv.wf.lookup_lt t dst ht
  have hne : src ≠ dst := by
    intro he
    subst he
    rw [hasPathAux_self] at hfalse
    exact absurd hfalse (by simp)
  obtain ⟨hlen, hkm, hvis, hvsrc, hvdst, hvother, hready⟩ :=
    (hd' ▸ addEdgeApply_spec d hsrc hdst hne :
      d'.vertices.length = d.vertices.length
      ∧ d'.keymap = d.keymap
      ∧ d'.visiting = d.visiting
      ∧ d'.vert src = { d.vert src with children := insert dst (d.vert src).children }
      ∧ d'.vert dst =
          { d.vert dst with
            parents := insert src (d.vert dst).parents,
            parents_outstanding := (d.vert dst).parents_outstanding +
              (if (d.vert src).state = .Completed then 0 else 1) }
      ∧ (∀ j, j ≠ src → j ≠ dst → d'.vert j = d.vert j)
      ∧ (d'.ready =
          if (d.vert dst).parents_outstanding +
              (if (d.vert src).state = .Completed then 0 else 1) = 0
          then insert dst d.ready else d.ready.erase dst))
  have hite : (if (d.vert src).state = .Completed then 0 else 1) = 1 := by
    rw [hq src]
    simp
  rw [hite] at hvdst hready
  rw [if_neg (by omega)] at hready
  have hq' : AllQueued d' := by
    intro j
    by_cases hjs : j = src
    · rw [hjs, hvsrc]
      exact hq src
    · by_cases hjd : j = dst
      · rw [hjd, hvdst]
        exact hq dst
      · rw [hvother j hjs hjd]
        exact hq j
  have hcntNe : ∀ j, j ≠ dst →
      (d'.vert j).parents_outstanding = (d.vert j).parents_outstanding := by
    intro j hjd
    by_cases hjs : j = src
    · rw [hjs, hvsrc]
    · rw [hvother j hjs hjd]
  have hcntDst : (d'.vert dst).parents_outstanding
      = (d.vert dst).parents_outstanding + 1 := by
    rw [hvdst]
  have hchl : ∀ j, (d'.vert j).children =
      if j = src then insert dst (d.vert src).children else (d.vert j).children := by
    intro j
    by_cases hjs : j = src
    · rw [if_pos hjs, hjs, hvsrc]
    · rw [if_neg hjs]
      by_cases hjd : j = dst
      · rw [hjd, hvdst]
      · rw [hvother j hjs hjd]
  have hpar : ∀ j, (d'.vert j).parents =
      if j = dst then insert src (d.vert dst).parents else (d.vert j).parents := by
    intro j
    by_cases hjd : j = dst
    · rw [if_pos hjd, hjd, hvdst]
    · rw [if_neg hjd]
      by_cases hjs : j = src
      · rw [hjs, hvsrc]
      · rw [hvother j hjs hjd]
  refine ⟨⟨WF_addEdge h hinv.wf, ?_, ?_, ?_, ?_, ?_, ?_⟩, hq'⟩
  · intro i hi
    rw [hlen] at hi
    rw [hready]
    by_cases hid : i = dst
    · constructor
      · intro hmem
        rw [hid] at hmem
        exact absurd hmem (Finset.not_mem_erase dst d.ready)
      · rintro ⟨-, hcnt⟩
        rw [hid, hcntDst] at hcnt
        omega
    · rw [Finset.mem_erase]
      have hcnte := hcntNe i hid
      constructor
      · rintro ⟨-, hmem⟩
        obtain ⟨h1, h2⟩ := (hinv.sound i hi).mp hmem
        exact ⟨hq' i, by rw [hcnte, h2]⟩
      · rintro ⟨-, hcnt⟩
        rw [hcnte] at hcnt
        exact ⟨hid, (hinv.sound i hi).mpr ⟨hq i, hcnt⟩⟩
  · intro i hi
    rw [hvis] at hi
    have h1 := hinv.visRun i hi
    rw [hq i] at h1
    exact State.noConfusion h1
  · intro i hi hne2
    exact absurd (hq' i) hne2
  · intro i hi
    rw [hlen] at hi
    rw [pendingParents_allQueued hq' i, hpar i]
    by_cases hid : i = dst
    · rw [if_pos hid, hid, hcntDst]
      calc (insert src (d.vert dst).parents).card
          ≤ (d.vert dst).parents.card + 1 := Finset.card_insert_le ..
        _ ≤ (d.vert dst).parents_outstanding + 1 := by
            have := hinv.cge dst hdst
            rw [pendingParents_allQueued hq dst] at this
            omega
    · rw [if_neg hid, hcntNe i hid]
      have := hinv.cge i hi
      rw [pendingParents_allQueued hq i] at this
      exact this
  · intro i hi c hc
    rw [hlen] at hi hc
    rw [hchl i, hpar c]
    by_cases his : i = src
    · rw [if_pos his]
      by_cases hcd : c = dst
      · rw [if_pos hcd, hcd, his]
        constructor
        · intro _
          exact Finset.mem_insert_self ..
        · intro _
          exact Finset.mem_insert_self ..
      · rw [if_neg hcd, Finset.mem_insert]
        constructor
        · rintro (hh | hh)
          · exact absurd hh hcd
          · exact (hinv.sym i hi c hc).mp (his ▸ hh)
        · intro hh
          exact Or.inr (his ▸ (hinv.sym i hi c hc).mpr hh)
    · rw [if_neg his]
      by_cases hcd : c = dst
      · rw [if_pos hcd, Finset.mem_insert]
        constructor
        · intro hh
          exact Or.inr (hcd ▸ (hinv.sym i hi c hc).mp hh)
        · rintro (hh | hh)
          · exact absurd hh his
          · exact hcd ▸ (hinv.sym i hi c hc).mpr (hcd ▸ hh)
      · rw [if_neg hcd]
        exact hinv.sym i hi c hc
  · intro i
    rw [hchl i]
    by_cases his : i = src
    · rw [if_pos his, Finset.mem_insert]
      rintro (hh | hh)
      · exact hne (his ▸ hh)
      · exact hinv.irr i (his ▸ hh)
    · rw [if_neg his]
      exact hinv.irr i

theorem inv_reset {d : DAG T} (hinv : TraverseInv d) (hq : AllQueued d) :
    TraverseInv (reset d) ∧ AllQueued (reset d) := by
  have hlen : (reset d).vertices.length = d.vertices.length := List.length_map ..
  have hq' : AllQueued (reset d) := by
    intro i
    rw [vert_reset]
    exact hq i
  have hsr : ∀ i, ((reset d).vert i).parents_outstanding = (d.vert i).parents.card := by
    intro i
    rw [vert_reset]
  refine ⟨⟨WF_reset hinv.wf, ?_, ?_, ?_, ?_, ?_, ?_⟩, hq'⟩
  · intro i hi
    rw [hlen] at hi
    show i ∈ d.ready ∪ _ ↔ _
    rw [Finset.mem_union, Finset.mem_filter, Finset.mem_range, hsr i]
    constructor
    · rintro (hmem | ⟨-, hc⟩)
      · obtain ⟨-, h2⟩ := (hinv.sound i hi).mp hmem
        have h3 := hinv.cge i hi
        rw [pendingParents_allQueued hq i, h2] at h3
        exact ⟨hq' i, by omega⟩
      · exact ⟨hq' i, hc⟩
    · rintro ⟨-, hc⟩
      exact Or.inr ⟨hi, hc⟩
  · intro i hi
    have h1 := hinv.visRun i hi
    rw [hq i] at h1
    exact State.noConfusion h1
  · intro i hi hne2
    exact absurd (hq' i) hne2
  · intro i hi
    rw [pendingParents_allQueued hq' i, hsr i, vert_reset]
  · intro i hi c hc
    rw [vert_reset, vert_reset]
    rw [hlen] at hi hc
    exact hinv.sym i hi c hc
  · intro i
    rw [vert_reset]
    exact hinv.irr i

/-! ### The traversal-phase invariant -/

theorem inv_visitNextAt {d : DAG T} {idx : Nat} (hinv : TraverseInv d)
    (hin : idx ∈ d.ready) : TraverseInv (visitNextAt d idx) := by
  have hidx : idx < d.vertices.length := hinv.wf.ready_lt idx hin
  obtain ⟨hq0, hc0⟩ := (hinv.sound idx hidx).mp hin
  have hlenV : (visitNextAt d idx).vertices.length = d.vertices.length :=
    List.length_set ..
  have hvV : ∀ j, (visitNextAt d idx).vert j =
      if idx = j ∧ idx < d.vertices.length then { d.vert idx with state := .Running }
      else d.vert j := by
    intro j
    show (DAG.modifyVert d idx (fun v => { v with state := .Running })).vert j = _
    exact vert_modifyVert d idx j _
  have hrV : (visitNextAt d idx).ready = d.ready.erase idx := rfl
  have hviV : (visitNextAt d idx).visiting = insert idx d.visiting := rfl
  have hvNe : ∀ j, j ≠ idx → (visitNextAt d idx).vert j = d.vert j := by
    intro j hj
    rw [hvV j, if_neg (fun hh => hj hh.1.symm)]
  have hvSelf : (visitNextAt d idx).vert idx = { d.vert idx with state := .Running } := by
    rw [hvV idx, if_pos ⟨rfl, hidx⟩]
  refine ⟨WF_visitNextAt hinv.wf hin, ?_, ?_, ?_, ?_, ?_, ?_⟩
  · intro j hj
    rw [hlenV] at hj
    rw [hrV]
    by_cases hji : j = idx
    · rw [hji, hvSelf]
      constructor
      · intro hmem
        exact absurd hmem (Finset.not_mem_erase idx d.ready)
      · rintro ⟨hst, -⟩
        exact State.noConfusion hst
    · rw [Finset.mem_erase, hvNe j hji]
      constructor
      · rintro ⟨-, hmem⟩
        exact (hinv.sound j hj).mp hmem
      · intro hh
        exact ⟨hji, (hinv.sound j hj).mpr hh⟩
  · intro j hj
    rw [hviV] at hj
    rcases Finset.mem_insert.mp hj with hj | hj
    · rw [hj, hvSelf]
    · by_cases hji : j = idx
      · rw [hji, hvSelf]
      · rw [hvNe j hji]
        exact hinv.visRun j hj
  · intro j hj hne
    rw [hlenV] at hj
    by_cases hji : j = idx
    · rw [hji, hvSelf]
      exact hc0
    · rw [hvNe j hji] at hne ⊢
      exact hinv.nqz j hj hne
  · intro j hj
    rw [hlenV] at hj
    have hpend : pendingParents (visitNextAt d idx) j = pendingParents d j := by
      rw [pendingParents, pendingParents]
      have hpar : ((visitNextAt d idx).vert j).parents = (d.vert j).parents := by
        rw [hvV j]
        split
        · rename_i hh
          rw [← hh.1]
        · rfl
      rw [hpar]
      refine Finset.filter_congr ?_
      intro p hp
      by_cases hpi : p = idx
      · rw [hpi, hvSelf, hq0]
        simp
      · rw [hvNe p hpi]
    rw [hpend]
    have hcnt : ((visitNextAt d idx).vert j).parents_outstanding =
        (d.vert j).parents_outstanding := by
      rw [hvV j]
      split
      · rename_i hh
        rw [← hh.1]
      · rfl
    rw [hcnt]
    exact hinv.cge j hj
  · intro j hj c hc
    rw [hlenV] at hj hc
    have hch : ((visitNextAt d idx).vert j).children = (d.vert j).children := by
      rw [hvV j]
      split
      · rename_i hh
        rw [← hh.1]
      · rfl
    have hpar : ((visitNextAt d idx).vert c).parents = (d.vert c).parents := by
      rw [hvV c]
      split
      · rename_i hh
        rw [← hh.1]
      · rfl
    rw [hch, hpar]
    exact hinv.sym j hj c hc
  · intro j
    have hch : ((visitNextAt d idx).vert j).children = (d.vert j).children := by
      rw [hvV j]
      split
      · rename_i hh
        rw [← hh.1]
      · rfl
    rw [hch]
    exact hinv.irr j

theorem inv_completeVisit {d d' : DAG T} {key : T} {e : Bool}
    (hinv : TraverseInv d) (h : completeVisit d key e = .ok d') :
    TraverseInv d' := by
  have hwf' : WF d' := WF_completeVisit h hinv.wf
  cases hl : lookupKey d.keymap key with
  | none =>
    rw [completeVisit_unknown d key e hl] at h
    exact absurd h (by simp)
  | some idx =>
    by_cases hv : idx ∈ d.visiting
    · have hidx : idx < d.vertices.length := hinv.wf.lookup_lt key idx hl
      have hrun : (d.vert idx).state = .Running := hinv.visRun idx hv
      have hnc : ¬(d.vert idx).state = .Completed := by
        rw [hrun]
        exact fun hh => State.noConfusion hh
      have hc0 : (d.vert idx).parents_outstanding = 0 :=
        hinv.nqz idx hidx (by rw [hrun]; exact fun hh => State.noConfusion hh)
      have hnr : idx ∉ d.ready := fun hm => by
        have hq := ((hinv.sound idx hidx).mp hm).1
        rw [hrun] at hq
        exact State.noConfusion hq
      cases e with
      | true =>
        rw [completeVisit_errored d key hl hv hnc] at h
        injection h with h
        subst h
        set dX : DAG T := ({ d with visiting := d.visiting.erase idx }).modifyVert idx
          (fun v => { v with state := .Errored }) with hdX
        have hvE : ∀ j, dX.vert j =
            if idx = j ∧ idx < d.vertices.length then { d.vert idx with state := .Errored }
            else d.vert j := by
          intro j
          rw [hdX]
          exact vert_modifyVert _ idx j _
        have hvEself : dX.vert idx = { d.vert idx with state := .Errored } := by
          rw [hvE idx, if_pos ⟨rfl, hidx⟩]
        have hvEne : ∀ j, j ≠ idx → dX.vert j = d.vert j := by
          intro j hjn
          rw [hvE j, if_neg (fun hh => hjn hh.1.symm)]
        have hreadyE : dX.ready = d.ready := by
          rw [hdX, ready_modifyVert]
        have hvisE : dX.visiting = d.visiting.erase idx := by
          rw [hdX, visiting_modifyVert]
        have hlenE : dX.vertices.length = d.vertices.length := by
          rw [hdX, length_modifyVert]
        have hchE : ∀ i, (dX.vert i).children = (d.vert i).children := by
          intro i
          rw [hvE i]
          split
          · rename_i hh
            rw [← hh.1]
          · rfl
        have hparE : ∀ i, (dX.vert i).parents = (d.vert i).parents := by
          intro i
          rw [hvE i]
          split
          · rename_i hh
            rw [← hh.1]
          · rfl
        refine ⟨hwf', ?_, ?_, ?_, ?_, ?_, ?_⟩
        · intro j hj
          rw [hlenE] at hj
          rw [hreadyE]
          by_cases hji : j = idx
          · subst hji
            rw [hvEself]
            constructor
            · intro hm
              exact absurd hm hnr
            · rintro ⟨hst, -⟩
              exact State.noConfusion hst
          · rw [hvEne j hji]
            exact hinv.sound j hj
        · intro j hj
          rw [hvisE] at hj
          have hjne := (Finset.mem_erase.mp hj).1
          rw [hvEne j hjne]
          exact hinv.visRun j (Finset.mem_erase.mp hj).2
        · intro j hj hne
          rw [hlenE] at hj
          by_cases hji : j = idx
          · subst hji
            rw [hvEself]
            exact hc0
          · rw [hvEne j hji] at hne ⊢
            exact hinv.nqz j hj hne
        · intro j hj
          rw [hlenE] at hj
          have hpendE : pendingParents dX j = pendingParents d j := by
            rw [pendingParents, pendingParents, hparE j]
            refine Finset.filter_congr ?_
            intro p hp
            by_cases hpi : p = idx
            · rw [hpi, hvEself, hrun]
              simp
            · rw [hvEne p hpi]
          rw [hpendE]
          have hcntE : (dX.vert j).parents_outstanding = (d.vert j).parents_outstanding := by
            rw [hvE j]
            split
            · rename_i hh
              rw [← hh.1]
            · rfl
          rw [hcntE]
          exact hinv.cge j hj
        · intro j hj c hc
          rw [hlenE] at hj hc
          rw [hchE j, hparE c]
          exact hinv.sym j hj c hc
        · intro j
          rw [hchE j]
          exact hinv.irr j
      | false =>
        rw [completeVisit_ok d key hl hv hnc] at h
        injection h with h
        subst h
        set d1 : DAG T := ({ d with visiting := d.visiting.erase idx }).modifyVert idx
          (fun v => { v with state := .Completed }) with hd1
        have hv1 : ∀ j, d1.vert j =
            if idx = j ∧ idx < d.vertices.length then { d.vert idx with state := .Completed }
            else d.vert j := by
          intro j
          rw [hd1]
          exact vert_modifyVert _ idx j _
        have hv1self : d1.vert idx = { d.vert idx with state := .Completed } := by
          rw [hv1 idx, if_pos ⟨rfl, hidx⟩]
        have hv1ne : ∀ j, j ≠ idx → d1.vert j = d.vert j := by
          intro j hjn
          rw [hv1 j, if_neg (fun hh => hjn hh.1.symm)]
        have hready1 : d1.ready = d.ready := by
          rw [hd1, ready_modifyVert]
        have hvis1 : d1.visiting = d.visiting.erase idx := by
          rw [hd1, visiting_modifyVert]
        have hlen1 : d1.vertices.length = d.vertices.length := by
          rw [hd1, length_modifyVert]
        set cs : List Nat := sortedList (d1.vert idx).children with hcs
        have hcseq : ∀ c, c ∈ cs ↔ c ∈ (d.vert idx).children := by
          intro c
          rw [hcs, mem_sortedList, hv1self]
        have hcs_lt : ∀ c ∈ cs, c < d.vertices.length := by
          intro c hc
          exact hinv.wf.children_lt idx c ((hcseq c).mp hc)
        have hnd : cs.Nodup := by
          rw [hcs]
          exact nodup_sortedList _
        have hidxcs : idx ∉ cs := fun hc => hinv.irr idx ((hcseq idx).mp hc)
        have hcs_lt1 : ∀ c ∈ cs, c < d1.vertices.length := by
          intro c hc
          rw [hlen1]
          exact hcs_lt c hc
        have hvX : ∀ j, (cs.foldl releaseChild d1).vert j =
            if j ∈ cs then
              { d1.vert j with parents_outstanding := (d1.vert j).parents_outstanding - 1 }
            else d1.vert j := foldl_release_vert cs d1 hcs_lt1 hnd
        have hrX : ∀ j, (j ∈ (cs.foldl releaseChild d1).ready ↔
            j ∈ d1.ready ∨ (j ∈ cs ∧ (d1.vert j).parents_outstanding - 1 = 0)) :=
          foldl_release_ready cs d1 hcs_lt1 hnd
        have hviX : (cs.foldl releaseChild d1).visiting = d1.visiting :=
          foldl_release_visiting cs d1
        have hlenX : (cs.foldl releaseChild d1).vertices.length = d.vertices.length := by
          rw [foldl_release_length, hlen1]
        have hXidx : (cs.foldl releaseChild d1).vert idx =
            { d.vert idx with state := .Completed } := by
          rw [hvX idx, if_neg hidxcs, hv1self]
        have hXcs : ∀ j ∈ cs, (cs.foldl releaseChild d1).vert j =
            { d.vert j with
              parents_outstanding := (d.vert j).parents_outstanding - 1 } := by
          intro j hj
          have hjne : j ≠ idx := fun hh => hidxcs (hh ▸ hj)
          rw [hvX j, if_pos hj, hv1ne j hjne]
        have hXout : ∀ j, j ∉ cs → j ≠ idx → (cs.foldl releaseChild d1).vert j = d.vert j := by
          intro j hjn hjne
          rw [hvX j, if_neg hjn, hv1ne j hjne]
        have hrX2 : ∀ j, (j ∈ (cs.foldl releaseChild d1).ready ↔
            j ∈ d.ready ∨ (j ∈ cs ∧ (d.vert j).parents_outstanding - 1 = 0)) := by
          intro j
          rw [hrX j, hready1]
          by_cases hjm : j ∈ cs
          · have hjne : j ≠ idx := fun hh => hidxcs (hh ▸ hjm)
            rw [hv1ne j hjne]
          · constructor
            · rintro (hm | ⟨hm, -⟩)
              · exact Or.inl hm
              · exact absurd hm hjm
            · rintro (hm | ⟨hm, -⟩)
              · exact Or.inl hm
              · exact absurd hm hjm
        have hchild : ∀ c ∈ cs, (d.vert c).state = .Queued ∧
            1 ≤ (d.vert c).parents_outstanding ∧ idx ∈ (d.vert c).parents := by
          intro c hc
          have hclt : c < d.vertices.length := hcs_lt c hc
          have hcpar : idx ∈ (d.vert c).parents :=
            (hinv.sym idx hidx c hclt).mp ((hcseq c).mp hc)
          have hpend : idx ∈ pendingParents d c := by
            rw [pendingParents, Finset.mem_filter]
            exact ⟨hcpar, by rw [hrun]; exact fun hh => State.noConfusion hh⟩
          have hc1 : 1 ≤ (d.vert c).parents_outstanding := by
            have hcard : 0 < (pendingParents d c).card := Finset.card_pos.mpr ⟨idx, hpend⟩
            have hge := hinv.cge c hclt
            omega
          have hcQ : (d.vert c).state = .Queued := by
            by_contra hq
            have hzero := hinv.nqz c hclt hq
            omega
          exact ⟨hcQ, hc1, hcpar⟩
        have hnrcs : ∀ c ∈ cs, c ∉ d.ready := by
          intro c hc hm
          have hclt := hcs_lt c hc
          have h0 := ((hinv.sound c hclt).mp hm).2
          have h1 := (hchild c hc).2.1
          omega
        have hstX : ∀ j, j ≠ idx →
            ((cs.foldl releaseChild d1).vert j).state = (d.vert j).state := by
          intro j hjne
          by_cases hjm : j ∈ cs
          · rw [hXcs j hjm]
          · rw [hXout j hjm hjne]
        have hparX : ∀ j, ((cs.foldl releaseChild d1).vert j).parents = (d.vert j).parents := by
          intro j
          by_cases hji : j = idx
          · subst hji
            rw [hXidx]
          · by_cases hjm : j ∈ cs
            · rw [hXcs j hjm]
            · rw [hXout j hjm hji]
        have hchX : ∀ j,
            ((cs.foldl releaseChild d1).vert j).children = (d.vert j).children := by
          intro j
          by_cases hji : j = idx
          · subst hji
            rw [hXidx]
          · by_cases hjm : j ∈ cs
            · rw [hXcs j hjm]
            · rw [hXout j hjm hji]
        have hpendX : ∀ j, pendingParents (cs.foldl releaseChild d1) j =
            (pendingParents d j).erase idx := by
          intro j
          ext p
          rw [pendingParents, pendingParents, hparX j]
          rw [Finset.mem_erase]
          by_cases hpi : p = idx
          · subst hpi
            rw [Finset.mem_filter, Finset.mem_filter]
            constructor
            · rintro ⟨-, hst⟩
              exact absurd (by rw [hXidx]) hst
            · rintro ⟨hne, -⟩
              exact absurd rfl hne
          · rw [Finset.mem_filter, Finset.mem_filter, hstX p hpi]
            constructor
            · rintro ⟨hp, hst⟩
              exact ⟨hpi, hp, hst⟩
            · rintro ⟨-, hp, hst⟩
              exact ⟨hp, hst⟩
        refine ⟨hwf', ?_, ?_, ?_, ?_, ?_, ?_⟩
        · intro j hj
          rw [hlenX] at hj
          by_cases hji : j = idx
          · subst hji
            constructor
            · intro hm
              rcases (hrX2 j).mp hm with hm | ⟨hm, -⟩
              · exact absurd hm hnr
              · exact absurd hm hidxcs
            · rintro ⟨hst, -⟩
              rw [hXidx] at hst
              exact State.noConfusion hst
          · by_cases hjm : j ∈ cs
            · obtain ⟨hcQ, hc1, -⟩ := hchild j hjm
              constructor
              · intro hm
                rcases (hrX2 j).mp hm with hm | ⟨-, hz⟩
                · exact absurd hm (hnrcs j hjm)
                · rw [hXcs j hjm]
                  exact ⟨hcQ, hz⟩
              · rintro ⟨-, hz⟩
                rw [hXcs j hjm] at hz
                exact (hrX2 j).mpr (Or.inr ⟨hjm, hz⟩)
            · rw [hXout j hjm hji]
              constructor
              · intro hm
                rcases (hrX2 j).mp hm with hm | ⟨hm, -⟩
                · exact (hinv.sound j hj).mp hm
                · exact absurd hm hjm
              · intro hh
                exact (hrX2 j).mpr (Or.inl ((hinv.sound j hj).mpr hh))
        · intro j hj
          rw [hviX, hvis1] at hj
          have hjne := (Finset.mem_erase.mp hj).1
          rw [hstX j hjne]
          exact hinv.visRun j (Finset.mem_erase.mp hj).2
        · intro j hj hne
          rw [hlenX] at hj
          by_cases hji : j = idx
          · subst hji
            rw [hXidx]
            exact hc0
          · by_cases hjm : j ∈ cs
            · have hjq : ((cs.foldl releaseChild d1).vert j).state = .Queued := by
                rw [hstX j hji]
                exact (hchild j hjm).1
              exact absurd hjq hne
            · rw [hXout j hjm hji] at hne ⊢
              exact hinv.nqz j hj hne
        · intro j hj
          rw [hlenX] at hj
          rw [hpendX j]
          by_cases hjm : j ∈ cs
          · have hjne : j ≠ idx := fun hh => hidxcs (hh ▸ hjm)
            obtain ⟨-, hc1, hcpar⟩ := hchild j hjm
            have hmem : idx ∈ pendingParents d j := by
              rw [pendingParents, Finset.mem_filter]
              exact ⟨hcpar, by rw [hrun]; exact fun hh => State.noConfusion hh⟩
            rw [Finset.card_erase_of_mem hmem, hXcs j hjm]
            show (pendingParents d j).card - 1 ≤ (d.vert j).parents_outstanding - 1
            have hge := hinv.cge j hj
            omega
          · have hnidx : idx ∉ pendingParents d j := by
              rw [pendingParents, Finset.mem_filter]
              rintro ⟨hp, -⟩
              by_cases hji : j = idx
              · rw [hji] at hp
                exact hinv.irr idx ((hinv.sym idx hidx idx hidx).mpr hp)
              · exact hjm ((hcseq j).mpr ((hinv.sym idx hidx j hj).mpr hp))
            rw [Finset.erase_eq_of_not_mem hnidx]
            by_cases hji : j = idx
            · subst hji
              rw [hXidx]
              exact hinv.cge j hidx
            · rw [hXout j hjm hji]
              exact hinv.cge j hj
        · intro j hj c hc
          rw [hlenX] at hj hc
          rw [hchX j, hparX c]
          exact hinv.sym j hj c hc
        · intro j
          rw [hchX j]
          exact hinv.irr j
    · rw [completeVisit_notVisiting d key e hl hv] at h
      exact absurd h (by simp)

theorem buildInv {d : DAG T} (h : BuildReachable d) : TraverseInv d ∧ AllQueued d := by
  induction h with
  | empty => exact inv_new
  | addVertexOk _ hok ih => exact inv_addVertex hok ih.1 ih.2
  | addVerticesAny _ ih => exact inv_addVertices _ ih.1 ih.2
  | addEdgeOk _ hok ih => exact inv_addEdge hok ih.1 ih.2

theorem traverseInv {d : DAG T} (h : TraverseReachable d) : TraverseInv d := by
  induction h with
  | ofBuild hb => exact (buildInv hb).1
  | resetOfBuild hb => exact (inv_reset (buildInv hb).1 (buildInv hb).2).1
  | visitAt _ hin ih => exact inv_visitNextAt ih hin
  | completeOk _ hok ih => exact inv_completeVisit ih hok

/-! ## Claim C4: the ready-set soundness invariant fails -/

/-- C4 counterexample: ready-set soundness (a vertex is in the ready
set iff it is `Queued` with a zero outstanding counter) is violated in
three reachable states: after `reset()` of a completed traversal the
`Completed` root re-enters the ready set; a failed
`set_vertex_state(0, Killed)` on a fresh vertex removes the `Queued`,
zero-counter vertex from the ready set; and completing a parent whose
edge was inserted mid-traversal pushes an already-`Running` vertex
into the ready set. -/
theorem ready_soundness_not_invariant :
    (DagReachable (reset dagC9) ∧ ¬ReadySound (reset dagC9))
    ∧ (DagReachable dagC4b ∧ ¬ReadySound dagC4b)
    ∧ (DagReachable dagC4c ∧ ¬ReadySound dagC4c) := by
  have hA : DagReachable ((addVertices (DAG.new Nat) [0, 1]).2) :=
    DagReachable.addVerticesAny DagReachable.empty
  have heB : addEdge (addVertices (DAG.new Nat) [0, 1]).2 0 1
      = .ok (orEmpty (addEdge (addVertices (DAG.new Nat) [0, 1]).2 0 1)) := by decide
  have hB := DagReachable.addEdgeOk hA heB
  have hC := DagReachable.visitAt hB (show (0 : Nat) ∈ _ by decide)
  have heD : completeVisit (visitNextAt
        (orEmpty (addEdge (addVertices (DAG.new Nat) [0, 1]).2 0 1)) 0) 0 false
      = .ok (orEmpty (completeVisit (visitNextAt
        (orEmpty (addEdge (addVertices (DAG.new Nat) [0, 1]).2 0 1)) 0) 0 false)) := by
    decide
  have hD := DagReachable.completeOk hC heD
  have hE := DagReachable.visitAt hD (show (1 : Nat) ∈ _ by decide)
  have heF : completeVisit (visitNextAt (orEmpty (completeVisit (visitNextAt
        (orEmpty (addEdge (addVertices (DAG.new Nat) [0, 1]).2 0 1)) 0) 0 false)) 1) 1 false
      = .ok dagC9 := by decide
  have hF : DagReachable dagC9 := DagReachable.completeOk hE heF
  have hGb : DagReachable dagC4b :=
    DagReachable.setStateAny (DagReachable.addVerticesAny DagReachable.empty)
  have hc0 : DagReachable ((addVertices (DAG.new Nat) [0, 1]).2) :=
    DagReachable.addVerticesAny DagReachable.empty
  have hc1 := DagReachable.visitAt hc0 (show (1 : Nat) ∈ _ by decide)
  have hec2 : addEdge (visitNextAt (addVertices (DAG.new Nat) [0, 1]).2 1) 0 1
      = .ok (orEmpty (addEdge (visitNextAt (addVertices (DAG.new Nat) [0, 1]).2 1) 0 1)) := by
    decide
  have hc2 := DagReachable.addEdgeOk hc1 hec2
  have hc3 := DagReachable.visitAt hc2 (show (0 : Nat) ∈ _ by decide)
  have hec4 : completeVisit (visitNextAt
        (orEmpty (addEdge (visitNextAt (addVertices (DAG.new Nat) [0, 1]).2 1) 0 1)) 0) 0 false
      = .ok dagC4c := by decide
  have hGc : DagReachable dagC4c := DagReachable.completeOk hc3 hec4
  refine ⟨⟨DagReachable.resetAny hF, ?_⟩, ⟨hGb, ?_⟩, ⟨hGc, ?_⟩⟩
  · rintro ⟨-, hs⟩
    have h := (hs 0 (by decide)).mp (by decide)
    exact absurd h.1 (by decide)
  · rintro ⟨-, hs⟩
    have h := (hs 0 (by decide)).mpr ⟨by decide, by decide⟩
    exact absurd h (by decide)
  · rintro ⟨-, hs⟩
    have h := (hs 1 (by decide)).mp (by decide)
    exact absurd h.1 (by decide)

/-- **Claim C4** (amended).  Ready-set soundness — a vertex is in the
ready set iff its state is `Queued` and its outstanding-parent counter
is zero — holds in every state obtained by building the graph with
`add_vertex` / `add_vertices` / `add_edge`, optionally calling
`reset()` on the built graph, and then traversing it with `visit_next`
/ `complete_visit`.  (As stated over *all* public operations the claim
is false: see the counterexample theorem.) -/
theorem ready_set_soundness (d : DAG T) (h : TraverseReachable d) :
    ∀ i < d.vertices.length,
      (i ∈ d.ready ↔ (d.vert i).state = .Queued ∧ (d.vert i).parents_outstanding = 0) :=
  (traverseInv h).sound

/-- Witness for the amended C4 claim at a concrete build-then-traverse
state. -/
theorem ready_set_soundness_witness :
    (1 : Nat) < dagC4w.vertices.length
    ∧ ((1 : Nat) ∈ dagC4w.ready ↔
        (dagC4w.vert 1).state = .Queued ∧ (dagC4w.vert 1).parents_outstanding = 0) := by
  have hb0 : BuildReachable ((addVertices (DAG.new Nat) [0, 1]).2) :=
    BuildReachable.addVerticesAny BuildReachable.empty
  have heb : addEdge (addVertices (DAG.new Nat) [0, 1]).2 0 1
      = .ok (orEmpty (addEdge (addVertices (DAG.new Nat) [0, 1]).2 0 1)) := by decide
  have hb : BuildReachable (orEmpty (addEdge (addVertices (DAG.new Nat) [0, 1]).2 0 1)) :=
    BuildReachable.addEdgeOk hb0 heb
  have hr : TraverseReachable dagC4w :=
    TraverseReachable.visitAt (TraverseReachable.ofBuild hb) (by decide)
  exact ⟨by decide, ready_set_soundness dagC4w hr 1 (by decide)⟩

/-! ## Claim C1 -/

/-- C1: the claim says `set_vertex_state(key, Completed)` (and the
`Errored` / `Killed` targets) removes the vertex from the ready and
visiting sets and then succeeds, behaving as `complete_visit`.  On the
code these arms remove the index from the visiting set *before*
delegating to `complete_visit`, which therefore always fails with
`NotVisiting`; evaluated on a reachable state with a single `Running`
vertex, every one of these transitions errors, and the failed
`Completed` request leaves the vertex `Running` yet outside the
visiting set. -/
theorem set_vertex_state_terminal_arms_always_fail :
    DagReachable dagC1
    ∧ (dagC1.vert 0).state = .Running
    ∧ 0 ∈ dagC1.visiting
    ∧ (setVertexState dagC1 0 .Completed).1 = .error .NotVisiting
    ∧ (setVertexState dagC1 0 .Errored).1 = .error .NotVisiting
    ∧ (setVertexState dagC1 0 .Killed).1 = .error .NotVisiting
    ∧ ((setVertexState dagC1 0 .Completed).2.vert 0).state = .Running
    ∧ 0 ∉ (setVertexState dagC1 0 .Completed).2.visiting :=
  ⟨DagReachable.visitAt (DagReachable.addVerticesAny DagReachable.empty) (by decide),
   by decide, by decide, by decide, by decide, by decide, by decide, by decide⟩

/-! ## Claim C2 -/

/-- C2: `complete_visit(key, errored)` fails with `UnknownKey` when the
key is absent and with `NotVisiting` when the vertex is not in the
visiting set; on an already-Completed vertex it succeeds leaving the
vertex array and ready set unchanged; otherwise `errored=true` turns
the state to `Errored` with no counter or ready-set change, and
`errored=false` turns it to `Completed`, decrements each child's
`parents_outstanding` by exactly one, adds every child reaching zero
to the ready set, and changes no other counter. -/
theorem complete_visit_contract (d : DAG T) (key : T) (errored : Bool) :
    (lookupKey d.keymap key = none → completeVisit d key errored = .error .UnknownKey)
    ∧ (∀ idx, lookupKey d.keymap key = some idx → idx ∉ d.visiting →
        completeVisit d key errored = .error .NotVisiting)
    ∧ (∀ idx, lookupKey d.keymap key = some idx → idx ∈ d.visiting →
        (d.vert idx).state = .Completed →
        ∃ d', completeVisit d key errored = .ok d' ∧
          d'.vertices = d.vertices ∧ d'.ready = d.ready)
    ∧ (∀ idx, lookupKey d.keymap key = some idx → idx ∈ d.visiting →
        idx < d.vertices.length →
        (d.vert idx).state ≠ .Completed → errored = true →
        ∃ d', completeVisit d key errored = .ok d' ∧
          (d'.vert idx).state = .Errored ∧
          (∀ j, (d'.vert j).parents_outstanding = (d.vert j).parents_outstanding) ∧
          d'.ready = d.ready)
    ∧ (∀ idx, lookupKey d.keymap key = some idx → idx ∈ d.visiting →
        idx < d.vertices.length →
        (d.vert idx).state ≠ .Completed → errored = false →
        (∀ c ∈ (d.vert idx).children, c < d.vertices.length) →
        idx ∉ (d.vert idx).children →
        (∀ c ∈ (d.vert idx).children, 1 ≤ (d.vert c).parents_outstanding) →
        ∃ d', completeVisit d key errored = .ok d' ∧
          (d'.vert idx).state = .Completed ∧
          (∀ c ∈ (d.vert idx).children,
            (d'.vert c).parents_outstanding + 1 = (d.vert c).parents_outstanding) ∧
          (∀ c ∈ (d.vert idx).children,
            (d.vert c).parents_outstanding = 1 → c ∈ d'.ready) ∧
          (∀ j, j ∉ (d.vert idx).children →
            (d'.vert j).parents_outstanding = (d.vert j).parents_outstanding)) := by
  refine ⟨fun h => completeVisit_unknown d key errored h,
    fun idx h h2 => completeVisit_notVisiting d key errored h h2,
    fun idx h h2 h3 => ⟨_, completeVisit_noop d key errored h h2 h3, rfl, rfl⟩,
    ?_, ?_⟩
  · rintro idx h h2 hidx h3 rfl
    have hidxE : idx < ({ d with visiting := d.visiting.erase idx } : DAG T).vertices.length :=
      hidx
    refine ⟨_, completeVisit_errored d key h h2 h3, ?_, ?_, rfl⟩
    · rw [vert_modifyVert_self _ idx _ hidxE]
      try rfl
    · intro j
      by_cases hj : idx = j
      · subst hj
        rw [vert_modifyVert_self _ idx _ hidxE]
        try rfl
      · rw [vert_modifyVert_ne _ _ hj]
        try rfl
  · rintro idx h h2 hidx h3 rfl hch hni hpos
    rw [completeVisit_ok d key h h2 h3]
    dsimp only
    have hidxE : idx < ({ d with visiting := d.visiting.erase idx } : DAG T).vertices.length :=
      hidx
    set d1 : DAG T := ({ d with visiting := d.visiting.erase idx }).modifyVert idx
      (fun v => { v with state := .Completed }) with hd1
    have hde : ({ d with visiting := d.visiting.erase idx } : DAG T).vert = d.vert := rfl
    have hlen1 : d1.vertices.length = d.vertices.length := by
      rw [hd1, length_modifyVert]
    have hv1self : d1.vert idx = { d.vert idx with state := .Completed } := by
      rw [hd1, vert_modifyVert_self _ idx _ hidxE]
      try rfl
    have hv1ne : ∀ j, idx ≠ j → d1.vert j = d.vert j := by
      intro j hj
      rw [hd1, vert_modifyVert_ne _ _ hj]
      try rfl
    have hchildren : (d1.vert idx).children = (d.vert idx).children := by
      rw [hv1self]
    set cs : List Nat := sortedList (d1.vert idx).children with hcs
    have hmemcs : ∀ c, c ∈ cs ↔ c ∈ (d.vert idx).children := by
      intro c
      rw [hcs, hchildren, mem_sortedList]
    have hltcs : ∀ c ∈ cs, c < d1.vertices.length := by
      intro c hc
      rw [hlen1]
      exact hch c ((hmemcs c).mp hc)
    have hndcs : cs.Nodup := by
      rw [hcs]
      exact nodup_sortedList _
    have hnics : idx ∉ cs := fun hmem => hni ((hmemcs idx).mp hmem)
    refine ⟨_, rfl, ?_, ?_, ?_, ?_⟩
    · rw [foldl_release_vert cs d1 hltcs hndcs idx, if_neg hnics, hv1self]
    · intro c hc
      have hcc : c ∈ cs := (hmemcs c).mpr hc
      have hcne : idx ≠ c := fun hh => hni (hh ▸ hc)
      rw [foldl_release_vert cs d1 hltcs hndcs c, if_pos hcc, hv1ne c hcne]
      exact Nat.succ_pred_eq_of_pos (hpos c hc)
    · intro c hc h1eq
      have hcc : c ∈ cs := (hmemcs c).mpr hc
      have hcne : idx ≠ c := fun hh => hni (hh ▸ hc)
      rw [foldl_release_ready cs d1 hltcs hndcs c]
      refine Or.inr ⟨hcc, ?_⟩
      rw [hv1ne c hcne, h1eq]
    · intro j hj
      have hjcs : j ∉ cs := fun hmem => hj ((hmemcs j).mp hmem)
      rw [foldl_release_vert cs d1 hltcs hndcs j, if_neg hjcs]
      by_cases hij : idx = j
      · subst hij
        rw [hv1self]
      · rw [hv1ne j hij]

/-- Witness for C2 at a concrete input: an unknown key errors, a
non-visited vertex errors, and completing the visited root releases
both children into the ready set with their counters decremented. -/
theorem complete_visit_contract_witness :
    completeVisit dagW (7 : Nat) false = .error .UnknownKey
    ∧ completeVisit dagW (1 : Nat) false = .error .NotVisiting
    ∧ ((completeVisit dagW (0 : Nat) false).toOption.map fun d' =>
        ((d'.vert 0).state, (d'.vert 1).parents_outstanding,
          (d'.vert 2).parents_outstanding,
          decide (1 ∈ d'.ready), decide (2 ∈ d'.ready)))
      = some (.Completed, 0, 0, true, true) := by
  refine ⟨(complete_visit_contract dagW 7 false).1 (by decide),
    (complete_visit_contract dagW 1 false).2.1 1 (by decide) (by decide), ?_⟩
  obtain ⟨d', hok, hstate, hdec, hready, _⟩ :=
    (complete_visit_contract dagW 0 false).2.2.2.2 0 (by decide) (by decide)
      (by decide) (by decide) rfl (by decide) (by decide) (by decide)
  rw [hok]
  have h1 : (d'.vert 1).parents_outstanding + 1 = (dagW.vert 1).parents_outstanding :=
    hdec 1 (by decide)
  have h2 : (d'.vert 2).parents_outstanding + 1 = (dagW.vert 2).parents_outstanding :=
    hdec 2 (by decide)
  have hc1 : (dagW.vert 1).parents_outstanding = 1 := by decide
  have hc2 : (dagW.vert 2).parents_outstanding = 1 := by decide
  have hr1 : 1 ∈ d'.ready := hready 1 (by decide) hc1
  have hr2 : 2 ∈ d'.ready := hready 2 (by decide) hc2
  rw [hc1] at h1
  rw [hc2] at h2
  simp only [Option.map, Except.toOption]
  rw [hstate]
  have h1' : (d'.vert 1).parents_outstanding = 0 := by omega
  have h2' : (d'.vert 2).parents_outstanding = 0 := by omega
  rw [h1', h2', decide_eq_true hr1, decide_eq_true hr2]

/-! ## Claim C9 -/

/-- C9: `reset()` sets every vertex's `parents_outstanding` to the
size of its parent set and puts every vertex with no parents into the
ready set, while leaving states, edges, the key map and the visiting
set untouched; consequently a parentless vertex that is still
`Completed` is re-seeded into the ready set, and `visit_next`
returning it transitions it from `Completed` to `Running`. -/
theorem reset_contract (d : DAG T) :
    (reset d).vertices.length = d.vertices.length
    ∧ (∀ i, ((reset d).vert i).parents_outstanding = ((d.vert i).parents).card)
    ∧ (∀ i < d.vertices.length, ((d.vert i).parents).card = 0 → i ∈ (reset d).ready)
    ∧ (∀ i, ((reset d).vert i).state = (d.vert i).state)
    ∧ (∀ i, ((reset d).vert i).children = (d.vert i).children)
    ∧ (∀ i, ((reset d).vert i).parents = (d.vert i).parents)
    ∧ (reset d).keymap = d.keymap
    ∧ (reset d).visiting = d.visiting
    ∧ (∀ i < d.vertices.length,
        (d.vert i).state = .Completed → ((d.vert i).parents).card = 0 →
          i ∈ (reset d).ready ∧ ((visitNextAt (reset d) i).vert i).state = .Running) := by
  have hready : ∀ i < d.vertices.length,
      ((d.vert i).parents).card = 0 → i ∈ (reset d).ready := by
    intro i hi hc
    show i ∈ d.ready ∪ _
    rw [Finset.mem_union]
    exact Or.inr (Finset.mem_filter.mpr ⟨Finset.mem_range.mpr hi, hc⟩)
  refine ⟨List.length_map .., fun i => by rw [vert_reset], hready,
    fun i => by rw [vert_reset], fun i => by rw [vert_reset],
    fun i => by rw [vert_reset], rfl, rfl, ?_⟩
  intro i hi hst hc
  refine ⟨hready i hi hc, ?_⟩
  show ((DAG.modifyVert (reset d) i
      (fun v => { v with state := .Running })).vert i).state = State.Running
  rw [vert_modifyVert_self]
  exact hi.trans_eq (List.length_map ..).symm

/-- Witness for C9 at a concrete input: after a full traversal,
`reset()` recomputes both counters from the parent sets, re-seeds the
still-`Completed` root `0` into the ready set without touching its
state, and a `visit_next` returning it makes it `Running`. -/
theorem reset_contract_witness :
    ((reset dagC9).vert 0).parents_outstanding = 0
    ∧ ((reset dagC9).vert 1).parents_outstanding = 1
    ∧ ((reset dagC9).vert 0).state = .Completed
    ∧ 0 ∈ (reset dagC9).ready
    ∧ ((visitNextAt (reset dagC9) 0).vert 0).state = .Running := by
  obtain ⟨-, hcnt, -, hstate, -, -, -, -, hlast⟩ := reset_contract dagC9
  obtain ⟨hr, hv⟩ := hlast 0 (by decide) (by decide) (by decide)
  refine ⟨?_, ?_, ?_, hr, hv⟩
  · rw [hcnt 0]
    decide
  · rw [hcnt 1]
    decide
  · rw [hstate 0]
    decide

/-! ## Claim C6: the terminal-state table of the cluster watcher -/

/-- **Claim C6** (amended).  On a 200 poll response whose first job
document yields a state string, log paths and an exit code, the
watcher behaves per the terminal-state table: a
`COMPLETED`/`FAILED`/`CANCELLED`/`TIMEOUT`/`OOM` state produces
exactly one report with `succeeded` iff `COMPLETED`, the slurped (or
placeholder) log contents, the exit code clamped to `-1` on i32
conversion failure, and the kill-acknowledged flag; a
`NODE_FAIL`/`PREEMPTED`/`BOOT_FAIL`/`DEADLINE` state produces exactly
one report annotated "Job failed due to potential cluster issue:
<state>" — but with `killed` left at its default `false`, the
kill-acknowledged flag being dropped (the divergence from the claim as
written, see the counterexample); any other state polls on with no
report. -/
theorem watch_job_terminal_report (slurm_id : Nat) (task_id : String) (start_time : Nat)
    (killed : Bool) (fs : String → Option String) (payload : Json) (jobs : List Json)
    (job : Json) (state errPath outPath : String) (code : Int)
    (hjobs : (payload.get "jobs").asArray = some jobs)
    (hhead : jobs.head? = some job)
    (hstate : (job.get "job_state").asStr = some state)
    (herr : (job.get "standard_error").asStr = some errPath)
    (hout : (job.get "standard_output").asStr = some outPath)
    (hcode : (job.get "exit_code").asI64 = some code) :
    (state = "COMPLETED" ∨ state = "FAILED" ∨ state = "CANCELLED" ∨ state = "TIMEOUT"
        ∨ state = "OOM" →
      watchPoll slurm_id task_id start_time killed fs (.response 200 (some payload))
        = .report { TaskAttempt.mkDefault start_time with
                    succeeded := decide (state = "COMPLETED"),
                    output := slurp_if_exists fs outPath,
                    error := slurp_if_exists fs errPath,
                    start_time := start_time,
                    exit_code := i32FromI64OrNeg1 code,
                    killed := killed })
    ∧ (state = "NODE_FAIL" ∨ state = "PREEMPTED" ∨ state = "BOOT_FAIL"
        ∨ state = "DEADLINE" →
      watchPoll slurm_id task_id start_time killed fs (.response 200 (some payload))
        = .report { TaskAttempt.mkDefault start_time with
                    succeeded := false,
                    output := slurp_if_exists fs outPath,
                    error := slurp_if_exists fs errPath,
                    start_time := start_time,
                    executor := [clusterIssueMsg state],
                    exit_code := i32FromI64OrNeg1 code })
    ∧ (¬(state = "COMPLETED" ∨ state = "FAILED" ∨ state = "CANCELLED" ∨ state = "TIMEOUT"
          ∨ state = "OOM") →
       ¬(state = "NODE_FAIL" ∨ state = "PREEMPTED" ∨ state = "BOOT_FAIL"
          ∨ state = "DEADLINE") →
      watchPoll slurm_id task_id start_time killed fs (.response 200 (some payload))
        = .continuePolling) := by
  refine ⟨?_, ?_, ?_⟩
  · intro hterm
    unfold watchPoll
    try dsimp only
    rw [if_neg (by decide : ¬((200 : Nat) ≠ 200))]
    try dsimp only
    rw [hjobs]
    try dsimp only
    rw [hhead]
    try dsimp only
    rw [hstate]
    try dsimp only
    rw [if_pos hterm]
    rw [herr]
    try dsimp only
    rw [hout]
    try dsimp only
    rw [hcode]
  · intro hterm
    unfold watchPoll
    try dsimp only
    rw [if_neg (by decide : ¬((200 : Nat) ≠ 200))]
    try dsimp only
    rw [hjobs]
    try dsimp only
    rw [hhead]
    try dsimp only
    rw [hstate]
    try dsimp only
    have hnc : ¬(state = "COMPLETED" ∨ state = "FAILED" ∨ state = "CANCELLED"
        ∨ state = "TIMEOUT" ∨ state = "OOM") := by
      rcases hterm with rfl | rfl | rfl | rfl <;> decide
    rw [if_neg hnc, if_pos hterm]
    rw [herr]
    try dsimp only
    rw [hout]
    try dsimp only
    rw [hcode]
  · intro hn1 hn2
    unfold watchPoll
    try dsimp only
    rw [if_neg (by decide : ¬((200 : Nat) ≠ 200))]
    try dsimp only
    rw [hjobs]
    try dsimp only
    rw [hhead]
    try dsimp only
    rw [hstate]
    try dsimp only
    rw [if_neg hn1, if_neg hn2]

/-- Witness for C6 at a concrete `COMPLETED` poll document, with a
kill previously acknowledged and no log files on disk. -/
theorem watch_job_terminal_report_witness :
    watchPoll 5 "t" 3 true (fun _ => none)
      (.response 200 (some (Json.obj [("jobs", Json.arr [jobDocCompleted])])))
      = .report { TaskAttempt.mkDefault 3 with
                  succeeded := true, output := "/tmp/out", error := "/tmp/err",
                  start_time := 3, exit_code := 0, killed := true } := by
  have hh := (watch_job_terminal_report 5 "t" 3 true (fun _ => none)
      (Json.obj [("jobs", Json.arr [jobDocCompleted])]) [jobDocCompleted]
      jobDocCompleted "COMPLETED" "/tmp/err" "/tmp/out" 0
      rfl rfl rfl rfl rfl rfl).1 (Or.inl rfl)
  exact hh.trans (by decide)

/-- C6 counterexample: on a `NODE_FAIL` poll document the claim says
the report's `killed` field reflects a previously acknowledged kill,
but the cluster-fault branch builds its `TaskAttempt` without the
`killed` flag: with the kill-acknowledged flag `true`, the emitted
report carries `killed = false`. -/
theorem cluster_fault_report_drops_killed_flag :
    watchPoll 5 "t" 3 true (fun _ => none)
      (.response 200 (some (Json.obj [("jobs", Json.arr [jobDocNodeFail])])))
      = .report { TaskAttempt.mkDefault 3 with
                  output := "/tmp/out", error := "/tmp/err",
                  executor := [clusterIssueMsg "NODE_FAIL"] } := by
  decide

/-! ## Claim C7: failures of the polling round trip -/

/-- **Claim C7** (amended).  Of the polling round-trip failures, only
a response with a non-200 status is turned into a report: the watcher
then emits exactly one failure report whose `executor` field names the
slurm job id and the task, and terminates.  A transport-level HTTP
error and every parse failure of the poll response (a body that is not
JSON, a missing or non-array `jobs` field, an empty `jobs` array, a
first job without a string `job_state`) instead panic the watcher
task: the `.unwrap()` calls fail and no report is emitted (the
divergence from the claim as written, see the counterexample). -/
theorem poll_failure_report (slurm_id : Nat) (task_id : String) (start_time : Nat)
    (killed : Bool) (fs : String → Option String) (status : Nat) (body : Option Json)
    (hne : status ≠ 200) :
    (watchPoll slurm_id task_id start_time killed fs (.response status body)
      = .report { TaskAttempt.mkDefault start_time with
                  executor := [pollFailureMsg slurm_id task_id] })
    ∧ watchPoll slurm_id task_id start_time killed fs .transportError = .panicked
    ∧ watchPoll slurm_id task_id start_time killed fs (.response 200 none) = .panicked
    ∧ (∀ payload, (payload.get "jobs").asArray = none →
        watchPoll slurm_id task_id start_time killed fs (.response 200 (some payload))
          = .panicked)
    ∧ (∀ payload jobs, (payload.get "jobs").asArray = some jobs → jobs.head? = none →
        watchPoll slurm_id task_id start_time killed fs (.response 200 (some payload))
          = .panicked)
    ∧ (∀ payload jobs job, (payload.get "jobs").asArray = some jobs →
        jobs.head? = some job → (job.get "job_state").asStr = none →
        watchPoll slurm_id task_id start_time killed fs (.response 200 (some payload))
          = .panicked) := by
  refine ⟨?_, rfl, rfl, ?_, ?_, ?_⟩
  · unfold watchPoll
    try dsimp only
    rw [if_pos hne]
  · intro payload hjobs
    unfold watchPoll
    try dsimp only
    rw [if_neg (by decide : ¬((200 : Nat) ≠ 200))]
    try dsimp only
    rw [hjobs]
  · intro payload jobs hjobs hhead
    unfold watchPoll
    try dsimp only
    rw [if_neg (by decide : ¬((200 : Nat) ≠ 200))]
    try dsimp only
    rw [hjobs]
    try dsimp only
    rw [hhead]
  · intro payload jobs job hjobs hhead hstate
    unfold watchPoll
    try dsimp only
    rw [if_neg (by decide : ¬((200 : Nat) ≠ 200))]
    try dsimp only
    rw [hjobs]
    try dsimp only
    rw [hhead]
    try dsimp only
    rw [hstate]

/-- Witness for C7: a 500 response produces the single diagnostic
report naming job id 9 and task "w". -/
theorem poll_failure_report_witness :
    watchPoll 9 "w" 1 false (fun _ => none) (.response 500 none)
      = .report { TaskAttempt.mkDefault 1 with executor := [pollFailureMsg 9 "w"] } :=
  (poll_failure_report 9 "w" 1 false (fun _ => none) 500 none (by decide)).1

/-- C7 counterexample: the claim says every polling failure — an HTTP
error or a parse failure included — yields a failure report, but a
transport-level error and a 200 response whose body lacks the expected
structure panic the watcher with no report at all. -/
theorem poll_transport_and_parse_failures_panic :
    watchPoll 9 "w" 1 false (fun _ => none) .transportError = .panicked
    ∧ watchPoll 9 "w" 1 false (fun _ => none) (.response 200 none) = .panicked
    ∧ watchPoll 9 "w" 1 false (fun _ => none) (.response 200 (some (Json.obj [])))
        = .panicked
    ∧ watchPoll 9 "w" 1 false (fun _ => none)
        (.response 200 (some (Json.obj [("jobs", Json.arr [])]))) = .panicked
    ∧ watchPoll 9 "w" 1 false (fun _ => none)
        (.response 200 (some (Json.obj [("jobs", Json.arr [Json.obj []])]))) = .panicked := by
  refine ⟨rfl, rfl, ?_, ?_, ?_⟩ <;> decide

/-! ## Claim C8: StopTask acknowledgement -/

/-- **Claim C8** (amended).  The cluster backend acknowledges every
`StopTask` unconditionally: whether or not the `(run_id, task_id)`
pair is registered in `running_tasks`, the acknowledgement is the last
channel write of the arm — after the kill signal, which is dispatched
exactly when the pair was registered (and the pair is then removed
from the map).  The trivial backend, by contrast, matches `StopTask`
with an empty arm and sends nothing on any channel (the divergence
from the claim as written, see the counterexample). -/
theorem stop_task_acknowledgement (running : List (Nat × String)) (run_id : Nat)
    (task_id : String) :
    (slurmStopTask running run_id task_id).1.getLast? = some .stopAck
    ∧ (ExecAction.killSignal run_id task_id ∈ (slurmStopTask running run_id task_id).1
        ↔ (run_id, task_id) ∈ running)
    ∧ ((run_id, task_id) ∈ running →
        (slurmStopTask running run_id task_id).1
          = [.killSignal run_id task_id, .stopAck])
    ∧ noopStopTask run_id task_id = [] := by
  unfold slurmStopTask noopStopTask
  by_cases h : (run_id, task_id) ∈ running
  · rw [if_pos h]
    refine ⟨rfl, ?_, fun _ => rfl, rfl⟩
    simp [h]
  · rw [if_neg h]
    refine ⟨rfl, ?_, fun hc => absurd hc h, rfl⟩
    simp [h]

/-- C8 counterexample: the trivial backend's `StopTask` arm is empty,
so no acknowledgement is ever sent on the message's response
channel. -/
theorem noop_stop_task_not_acknowledged :
    ExecAction.stopAck ∉ noopStopTask 0 "task" := by
  decide

/-! ## Claim C10: the reachable parse panics of ExecuteTask -/

/-- **Claim C10**.  The `extract_details(..).unwrap()` at the top of
both `submit_slurm_job` and `watch_job` panics for details that do not
conform to the `SlurmTaskDetail` schema (e.g. `null` details), so the
panic branch is reachable; whenever `extract_details` succeeds —
equivalently, whenever the `ValidateTask` arm would reply `Ok` — both
unwraps return the parsed details and `ExecuteTask` proceeds without a
parse error. -/
theorem execute_task_parse_safety :
    (∃ bad : Json, submitParse bad = .panicked ∧ watchParse bad = .panicked)
    ∧ (∀ j t, extract_details j = .ok t →
        submitParse j = .ok t ∧ watchParse j = .ok t ∧ validateTask j = .ok ())
    ∧ (∀ j, validateTask j = .ok () ↔ ∃ t, extract_details j = .ok t) := by
  refine ⟨⟨Json.null, by decide, by decide⟩, ?_, ?_⟩
  · intro j t h
    refine ⟨?_, ?_, ?_⟩
    · unfold submitParse
      rw [h]
    · unfold watchParse
      rw [h]
    · unfold validateTask
      rw [h]
  · intro j
    unfold validateTask
    cases h : extract_details j with
    | error e => simp [h]
    | ok t => simp [h]

/-- Witness for C10: the conforming document `goodDoc` parses to
`goodDetail` in both unwrap sites and validates `Ok`. -/
theorem execute_task_parse_safety_witness :
    submitParse goodDoc = .ok goodDetail ∧ watchParse goodDoc = .ok goodDetail
      ∧ validateTask goodDoc = .ok () :=
  execute_task_parse_safety.2.1 goodDoc goodDetail (by decide)

end Daggyr
